import Mathlib

/-!
Verification of the per-edge trussness computation of truss.cpp
(functions igraph_trussness, igraph_truss_i_unpack,
igraph_truss_i_compute_support and igraph_i_trussness).

The embedding models the igraph vectors as Lean lists, edge ids as
indices into the edge list of the graph, and the bucket-of-sets
structure (vector of unordered sets of edge ids) as a list of
duplicate-free lists.  The peeling loop is modelled as a fueled
iteration; fuel equal to the number of edges is shown to be enough.
A write log is threaded through the state so that write-once
properties of the trussness output can be stated.
-/

namespace Truss

/-! ### List helpers -/

theorem getD_set_self {α : Type} (l : List α) (i : Nat) (a d : α) (h : i < l.length) :
    (l.set i a).getD i d = a := by
  simp [List.getD_eq_getElem?_getD, List.getElem?_set_self', List.getElem?_eq_getElem h]

theorem getD_set_ne {α : Type} (l : List α) {i j : Nat} (a : α) (d : α) (h : i ≠ j) :
    (l.set i a).getD j d = l.getD j d := by
  simp [List.getD_eq_getElem?_getD, List.getElem?_set_ne h]

theorem getD_pos_lt_length (l : List Nat) (i : Nat) (h : 0 < l.getD i 0) :
    i < l.length := by
  by_contra hlt
  rw [List.getD_eq_default] at h
  · omega
  · omega

/-! ### The graph data model

A graph as the core reads it from igraph: a number of vertices and a
list of undirected edges given by their endpoint pairs.  The edge id
of an edge is its index in the list. -/

structure Graph where
  V : Nat
  edges : List (Nat × Nat)

/-- Number of edges, igraph_ecount. -/
def ecount (g : Graph) : Nat := g.edges.length

/-- igraph_edge: the endpoint pair stored for an edge id. -/
def edgeEnds (g : Graph) (e : Nat) : Nat × Nat := g.edges.getD e (0, 0)

/-- Whether a stored edge connects the unordered pair a, b. -/
def edgeMatches (p : Nat × Nat) (a b : Nat) : Bool :=
  (p.1 == a && p.2 == b) || (p.1 == b && p.2 == a)

/-- Index of the first edge between a and b in an edge list. -/
def findEid : List (Nat × Nat) → Nat → Nat → Option Nat
  | [], _, _ => none
  | p :: rest, a, b =>
    if edgeMatches p a b then some 0 else (findEid rest a b).map (· + 1)

/-- igraph_get_eid with directed = false and error = true: the id of the
first edge between a and b (none models the error return). -/
def get_eid (g : Graph) (a b : Nat) : Option Nat := findEid g.edges a b

theorem findEid_lt {l : List (Nat × Nat)} {a b i : Nat} (h : findEid l a b = some i) :
    i < l.length := by
  induction l generalizing i with
  | nil => simp [findEid] at h
  | cons p rest ih =>
    by_cases hm : edgeMatches p a b
    · simp [findEid, hm] at h
      simp only [List.length_cons]
      omega
    · simp [findEid, hm] at h
      obtain ⟨j, hj, rfl⟩ := h
      have := ih hj
      simp only [List.length_cons]
      omega

theorem findEid_spec {l : List (Nat × Nat)} {a b i : Nat} (h : findEid l a b = some i) :
    ∃ p, l.get? i = some p ∧ edgeMatches p a b = true := by
  induction l generalizing i with
  | nil => simp [findEid] at h
  | cons q rest ih =>
    by_cases hm : edgeMatches q a b
    · simp [findEid, hm] at h
      exact ⟨q, by simp [← h], hm⟩
    · simp [findEid, hm] at h
      obtain ⟨j, hj, rfl⟩ := h
      obtain ⟨p, hp, hmp⟩ := ih hj
      exact ⟨p, by simpa using hp, hmp⟩

theorem get_eid_lt {g : Graph} {a b i : Nat} (h : get_eid g a b = some i) :
    i < ecount g := findEid_lt h

/-- The unordered endpoint pair of the edge returned by get_eid is the
queried pair.  Stated as: the stored pair matches (a, b). -/
theorem get_eid_matches {g : Graph} {a b i : Nat} (h : get_eid g a b = some i) :
    ∃ p, g.edges.get? i = some p ∧ edgeMatches p a b = true := findEid_spec h

/-- Two get_eid results for unordered pairs that share no common
unordered pair are distinct edge ids: an edge id stored as p can match
only one unordered vertex pair. -/
theorem get_eid_ne {g : Graph} {a b c d i j : Nat}
    (hi : get_eid g a b = some i) (hj : get_eid g c d = some j)
    (hdiff : ¬ ((a = c ∧ b = d) ∨ (a = d ∧ b = c))) : i ≠ j := by
  intro heq
  subst heq
  obtain ⟨p, hp, hm1⟩ := get_eid_matches hi
  obtain ⟨q, hq, hm2⟩ := get_eid_matches hj
  rw [hp] at hq
  cases hq
  simp [edgeMatches] at hm1 hm2
  rcases hm1 with ⟨h1, h2⟩ | ⟨h1, h2⟩ <;> rcases hm2 with ⟨h3, h4⟩ | ⟨h3, h4⟩ <;>
    exact hdiff (by omega)

/-! ### Support builder: igraph_truss_i_unpack and
igraph_truss_i_compute_support -/

/-- igraph_truss_i_unpack: the triangle list, a flat list of vertex
triples as produced by igraph_list_triangles, is unpacked into the
three endpoint pairs of each triangle.  The C code writes the pairs
(u, v), (u, w), (v, w) for each triple (u, v, w) into a flat vector of
length 2 * (list length); this is the same data as a list of pairs. -/
def unpack : List Nat → List (Nat × Nat)
  | u :: v :: w :: rest => (u, v) :: (u, w) :: (v, w) :: unpack rest
  | _ => []

/-- igraph_get_eids over the unpacked pair list with error = true:
resolve every pair to an edge id, failing if any pair has none. -/
def get_eids (g : Graph) : List (Nat × Nat) → Option (List Nat)
  | [] => some []
  | p :: rest =>
    match get_eid g p.1 p.2, get_eids g rest with
    | some e, some l => some (e :: l)
    | _, _ => none

/-- igraph_truss_i_compute_support: tally one count per resolved edge
id into the support array. -/
def compute_support (eids : List Nat) (support : List Nat) : List Nat :=
  eids.foldl (fun s e => s.set e (s.getD e 0 + 1)) support

/-- Number of triples of the triangle list whose resolved edges
include edge e (a triangle contains an edge id when one of its three
vertex pairs resolves to it). -/
def triangleCount (g : Graph) : List Nat → Nat → Nat
  | u :: v :: w :: rest, e =>
    (if get_eid g u v = some e ∨ get_eid g u w = some e ∨ get_eid g v w = some e
      then 1 else 0) + triangleCount g rest e
  | _, _ => 0

/-- Well-formedness of a triangle list as produced by the (external)
triangle lister: triples of pairwise distinct vertices whose three
edges exist in the graph. -/
def TriWF (g : Graph) : List Nat → Prop
  | [] => True
  | u :: v :: w :: rest =>
    u ≠ v ∧ u ≠ w ∧ v ≠ w ∧
    (get_eid g u v).isSome ∧ (get_eid g u w).isSome ∧ (get_eid g v w).isSome ∧
    TriWF g rest
  | _ => False

theorem compute_support_length (eids : List Nat) (s : List Nat) :
    (compute_support eids s).length = s.length := by
  induction eids generalizing s with
  | nil => rfl
  | cons x rest ih =>
    simp only [compute_support, List.foldl_cons] at *
    rw [ih]
    exact List.length_set _ _ _

theorem compute_support_cons (x : Nat) (rest : List Nat) (s : List Nat) :
    compute_support (x :: rest) s = compute_support rest (s.set x (s.getD x 0 + 1)) := rfl

theorem compute_support_getD (eids : List Nat) (s : List Nat) (e : Nat)
    (he : e < s.length) :
    (compute_support eids s).getD e 0 = s.getD e 0 + eids.count e := by
  induction eids generalizing s with
  | nil => simp [compute_support]
  | cons x rest ih =>
    rw [compute_support_cons, ih _ (by simpa using he)]
    by_cases hx : x = e
    · subst hx
      rw [getD_set_self _ _ _ _ he]
      simp [List.count_cons]
      omega
    · rw [getD_set_ne _ _ _ hx]
      have hne : ¬ (e == x) = true := by simpa using fun hh => hx hh.symm
      simp [List.count_cons, hne]
      exact hx

theorem count_cons_nat (x e : Nat) (l : List Nat) :
    (x :: l).count e = l.count e + (if x = e then 1 else 0) := by
  by_cases h : x = e
  · subst h
    simp [List.count_cons]
  · have hb : ¬ (e == x) = true := by simpa using fun hh => h hh.symm
    simp [List.count_cons, hb, h]

/-- Unpacking and resolving a well-formed triangle list succeeds, and
each edge id occurs in the resolved list once per triangle that
contains it. -/
theorem get_eids_unpack (g : Graph) : ∀ (tris : List Nat), TriWF g tris →
    ∃ l, get_eids g (unpack tris) = some l ∧
      ∀ e, l.count e = triangleCount g tris e
  | [], _ => ⟨[], rfl, fun _ => rfl⟩
  | [_], h => h.elim
  | [_, _], h => h.elim
  | u :: v :: w :: rest, h => by
    obtain ⟨huv, huw, hvw, s1, s2, s3, hrest⟩ := h
    obtain ⟨e1, he1⟩ := Option.isSome_iff_exists.mp s1
    obtain ⟨e2, he2⟩ := Option.isSome_iff_exists.mp s2
    obtain ⟨e3, he3⟩ := Option.isSome_iff_exists.mp s3
    obtain ⟨l, hl, hcount⟩ := get_eids_unpack g rest hrest
    refine ⟨e1 :: e2 :: e3 :: l, ?_, ?_⟩
    · simp [unpack, get_eids, he1, he2, he3, hl]
    · intro e
      have h12 : e1 ≠ e2 := get_eid_ne he1 he2 (by omega)
      have h13 : e1 ≠ e3 := get_eid_ne he1 he3 (by omega)
      have h23 : e2 ≠ e3 := get_eid_ne he2 he3 (by omega)
      have hcnt := hcount e
      simp only [triangleCount, he1, he2, he3, Option.some_inj, count_cons_nat, hcnt]
      by_cases hx1 : e1 = e <;> by_cases hx2 : e2 = e <;> by_cases hx3 : e3 = e <;>
        first
          | exact absurd (hx1.trans hx2.symm) h12
          | exact absurd (hx1.trans hx3.symm) h13
          | exact absurd (hx2.trans hx3.symm) h23
          | (simp [hx1, hx2, hx3] <;> omega)

theorem replicate_getD_zero (n e : Nat) : (List.replicate n 0).getD e 0 = 0 := by
  rw [List.getD_eq_getElem?_getD, List.getElem?_replicate]
  by_cases h : e < n <;> simp [h]

/-! ### Adjacency model

The peeling loop consults a sorted adjacency list built by
igraph_adjlist_init (mode IGRAPH_ALL, IGRAPH_NO_LOOPS) followed by
igraph_adjlist_sort; these are igraph library routines whose sources
are outside this repository snapshot. -/

/-- Whether two vertices are joined by at least one stored edge. -/
def adjacentB (g : Graph) (v u : Nat) : Bool :=
  g.edges.any (fun p => edgeMatches p v u)

/-- Modelled from the spec: the sorted_neighbors collaborator
(igraph_adjlist_init plus igraph_adjlist_sort, missing from the given
sources).  Per the spec it yields the neighbors of a vertex in
ascending order, deduplicated, excluding self-loops. -/
def sortedNeighbors (g : Graph) (v : Nat) : List Nat :=
  (List.range g.V).filter (fun u => u != v && adjacentB g v u)

/-- The common-neighbor step of the peeling loop: the code intersects
the two sorted neighbor lists (igraph_vector_int_intersect_sorted,
after swapping so that the shorter list comes first, which does not
change the resulting ascending intersection).  On sorted
duplicate-free lists this intersection is the filter of one list by
membership in the other. -/
def commonNeighbors (g : Graph) (a b : Nat) : List Nat :=
  (sortedNeighbors g a).filter (fun n => (sortedNeighbors g b).contains n)

theorem mem_sortedNeighbors (g : Graph) (v u : Nat) :
    u ∈ sortedNeighbors g v ↔
      (u < g.V ∧ u ≠ v ∧ ∃ p ∈ g.edges, edgeMatches p v u = true) := by
  unfold sortedNeighbors adjacentB
  rw [List.mem_filter, List.mem_range]
  simp [List.any_eq_true, and_assoc]

theorem mem_commonNeighbors (g : Graph) (a b n : Nat) :
    n ∈ commonNeighbors g a b ↔
      (n < g.V ∧ n ≠ a ∧ (∃ p ∈ g.edges, edgeMatches p a n = true) ∧
        n ≠ b ∧ ∃ p ∈ g.edges, edgeMatches p b n = true) := by
  unfold commonNeighbors
  rw [List.mem_filter]
  have hcont : ((sortedNeighbors g b).contains n = true) ↔ n ∈ sortedNeighbors g b := by
    simp
  rw [hcont, mem_sortedNeighbors, mem_sortedNeighbors]
  constructor
  · rintro ⟨⟨h1, h2, h3⟩, _, h5, h6⟩
    exact ⟨h1, h2, h3, h5, h6⟩
  · rintro ⟨h1, h2, h3, h5, h6⟩
    exact ⟨⟨h1, h2, h3⟩, h1, h5, h6⟩

/-! ### The truss peeler: igraph_i_trussness

The mutable state of the peeling loop.  The C++ bucket structure
(vector of unordered sets of edge ids) is a list of duplicate-free
lists of edge ids; the trussness output vector, whose entries are
uninitialized until written, is a list of options.  The log field is
pure instrumentation: it records one entry (edge, level) for each
write to the trussness vector and influences nothing else. -/

structure PeelState where
  support : List Nat
  completed : List Bool
  trussness : List (Option Nat)
  buckets : List (List Nat)
  log : List (Nat × Nat)

/-- Contents of a bucket (the set of edges currently at one level). -/
def bucketGet (bs : List (List Nat)) (l : Nat) : List Nat := bs.getD l []

/-- unordered_set insert: a no-op when the element is present. -/
def bucketInsert (bs : List (List Nat)) (l e : Nat) : List (List Nat) :=
  bs.set l (if e ∈ bucketGet bs l then bucketGet bs l else e :: bucketGet bs l)

/-- unordered_set erase by value. -/
def bucketErase (bs : List (List Nat)) (l e : Nat) : List (List Nat) :=
  bs.set l ((bucketGet bs l).erase e)

/-- One demotion (lines 239-251 of truss.cpp, for one of e1, e2): if
the support of the edge is strictly above the current level, decrement
it, insert the edge into the bucket of the new level and erase it from
the bucket of the old level (the insert happens first in the code). -/
def demote (level e : Nat) (st : PeelState) : PeelState :=
  if level < st.support.getD e 0 then
    let newLevel := st.support.getD e 0 - 1
    { st with
      support := st.support.set e newLevel,
      buckets := bucketErase (bucketInsert st.buckets newLevel e) (newLevel + 1) e }
  else st

/-- Handling of one common neighbor n of the endpoints of the seed
edge (lines 229-253): resolve the two closing edges e1 = (fromV, n)
and e2 = (toV, n); when both are not yet completed, demote each in
turn, otherwise do nothing.  igraph_get_eid cannot fail here because a
common neighbor is adjacent to both endpoints, so the fallthrough
branch is unreachable in the loop. -/
def handleCommon (g : Graph) (level fromV toV : Nat) (st : PeelState) (n : Nat) :
    PeelState :=
  match get_eid g fromV n, get_eid g toV n with
  | some e1, some e2 =>
    if st.completed.getD e1 false || st.completed.getD e2 false then st
    else demote level e2 (demote level e1 st)
  | _, _ => st

/-- One iteration of the inner while loop (lines 203-258): pop the
first edge of the bucket of the current level, walk the common
neighbors of its endpoints demoting closing edges, then finalize the
seed with trussness level + 2 and mark it completed. -/
def seedStep (g : Graph) (level seed : Nat) (st : PeelState) : PeelState :=
  let st0 : PeelState := { st with buckets := bucketErase st.buckets level seed }
  let fromV := (edgeEnds g seed).1
  let toV := (edgeEnds g seed).2
  let st1 := (commonNeighbors g fromV toV).foldl (handleCommon g level fromV toV) st0
  { st1 with
    trussness := st1.trussness.set seed (some (level + 2)),
    completed := st1.completed.set seed true,
    log := st1.log ++ [(seed, level)] }

/-- The while loop over the bucket of one level, indexed by fuel; each
iteration completes one edge, so fuel equal to the number of edges is
enough (proved below). -/
def whileN (g : Graph) (level : Nat) : Nat → PeelState → PeelState
  | 0, st => st
  | Nat.succ fuel, st =>
    match bucketGet st.buckets level with
    | [] => st
    | seed :: _ => whileN g level fuel (seedStep g level seed st)

/-- The for loop over levels (lines 200-259): k levels starting at
level, each running the while loop with the given fuel. -/
def peelLevels (g : Graph) (fuel : Nat) : Nat → Nat → PeelState → PeelState
  | 0, _, st => st
  | Nat.succ k, level, st => peelLevels g fuel k (level + 1) (whileN g level fuel st)

/-- igraph_vector_int_max: maximum entry, undefined (none) on an empty
vector. -/
def vectorMax : List Nat → Option Nat
  | [] => none
  | x :: xs => some (xs.foldl Nat.max x)

/-- Lines 170-180: fresh completed flags, undefined trussness entries,
and every edge inserted into the bucket of its initial support. -/
def initialState (support : List Nat) (mx : Nat) : PeelState :=
  { support := support,
    completed := List.replicate support.length false,
    trussness := List.replicate support.length none,
    buckets := (List.range support.length).foldl
      (fun bs i => bucketInsert bs (support.getD i 0) i)
      (List.replicate (mx + 1) []),
    log := [] }

/-- One step of the loop of lines 185-188: record trussness 2 for a
level-0 edge and mark it completed. -/
def completeEdge0 (s : PeelState) (e : Nat) : PeelState :=
  { s with
    trussness := s.trussness.set e (some 2),
    completed := s.completed.set e true,
    log := s.log ++ [(e, 0)] }

/-- Lines 183-188: every edge of bucket 0 gets trussness 2 and is
marked completed; the bucket itself is not emptied. -/
def completeLevel0 (st : PeelState) : PeelState :=
  (bucketGet st.buckets 0).foldl completeEdge0 st

/-- State after the initialization phase of igraph_i_trussness. -/
def initTruss (support : List Nat) (mx : Nat) : PeelState :=
  completeLevel0 (initialState support mx)

/-- Final state of the peeling run of igraph_i_trussness: levels 1 to
mx, with fuel equal to the number of edges for each level. -/
def trussPeelRun (g : Graph) (support : List Nat) (mx : Nat) : PeelState :=
  peelLevels g support.length mx 1 (initTruss support mx)

/-- State at the start of the processing of a given level: levels 1 to
level - 1 have run. -/
def stateAtLevel (g : Graph) (support : List Nat) (mx level : Nat) : PeelState :=
  peelLevels g support.length (level - 1) 1 (initTruss support mx)

/-- igraph_i_trussness: resize the result to the number of edges and
return it immediately when there are no edges (lines 160-164; the
maximum support, the buckets and the adjacency list are only computed
after this early return); otherwise peel and return the trussness
vector. -/
def igraph_i_trussness (g : Graph) (support : List Nat) :
    Option (List (Option Nat)) :=
  if support.length = 0 then some []
  else
    match vectorMax support with
    | none => none
    | some mx => some ((trussPeelRun g support mx).trussness)

/-- igraph_trussness: the full pipeline.  The triangle list (flat list
of vertex triples) is produced by igraph_list_triangles, an igraph
library routine outside this repository snapshot, and is taken here as
an argument.  The unpacked pairs are resolved to edge ids
(igraph_get_eids, failing on a pair with no edge), tallied into the
support vector, and handed to the peeler. -/
def igraph_trussness (g : Graph) (tris : List Nat) :
    Option (List (Option Nat)) :=
  match get_eids g (unpack tris) with
  | none => none
  | some eids =>
    igraph_i_trussness g (compute_support eids (List.replicate (ecount g) 0))

/-! ### Bucket lemmas -/

theorem length_bucketInsert (bs : List (List Nat)) (l e : Nat) :
    (bucketInsert bs l e).length = bs.length := List.length_set _ _ _

theorem length_bucketErase (bs : List (List Nat)) (l e : Nat) :
    (bucketErase bs l e).length = bs.length := List.length_set _ _ _

theorem bucketGet_insert_ne (bs : List (List Nat)) {l b : Nat} (e : Nat) (h : l ≠ b) :
    bucketGet (bucketInsert bs l e) b = bucketGet bs b := getD_set_ne _ _ _ h

theorem bucketGet_erase_ne (bs : List (List Nat)) {l b : Nat} (e : Nat) (h : l ≠ b) :
    bucketGet (bucketErase bs l e) b = bucketGet bs b := getD_set_ne _ _ _ h

theorem bucketGet_insert_self (bs : List (List Nat)) (l e : Nat) (h : l < bs.length) :
    bucketGet (bucketInsert bs l e) l =
      if e ∈ bucketGet bs l then bucketGet bs l else e :: bucketGet bs l :=
  getD_set_self _ _ _ _ h

theorem bucketGet_erase_self (bs : List (List Nat)) (l e : Nat) (h : l < bs.length) :
    bucketGet (bucketErase bs l e) l = (bucketGet bs l).erase e :=
  getD_set_self _ _ _ _ h

theorem bucketInsert_oob (bs : List (List Nat)) (l e : Nat) (h : bs.length ≤ l) :
    bucketInsert bs l e = bs := List.set_eq_of_length_le h

theorem bucketErase_oob (bs : List (List Nat)) (l e : Nat) (h : bs.length ≤ l) :
    bucketErase bs l e = bs := List.set_eq_of_length_le h

theorem mem_bucketGet_insert_of_mem {bs : List (List Nat)} {l e b x : Nat}
    (h : x ∈ bucketGet bs b) : x ∈ bucketGet (bucketInsert bs l e) b := by
  by_cases hlen : l < bs.length
  · by_cases hb : l = b
    · subst hb
      rw [bucketGet_insert_self _ _ _ hlen]
      by_cases hm : e ∈ bucketGet bs l
      · simpa [hm] using h
      · simp [hm, h]
    · rwa [bucketGet_insert_ne _ _ hb]
  · rwa [bucketInsert_oob _ _ _ (by omega)]

theorem mem_bucketGet_insert_self {bs : List (List Nat)} {l e : Nat}
    (hlen : l < bs.length) : e ∈ bucketGet (bucketInsert bs l e) l := by
  rw [bucketGet_insert_self _ _ _ hlen]
  by_cases hm : e ∈ bucketGet bs l <;> simp [hm]

theorem of_mem_bucketGet_insert {bs : List (List Nat)} {l e b x : Nat}
    (h : x ∈ bucketGet (bucketInsert bs l e) b) :
    x ∈ bucketGet bs b ∨ (x = e ∧ b = l) := by
  by_cases hlen : l < bs.length
  · by_cases hb : l = b
    · subst hb
      rw [bucketGet_insert_self _ _ _ hlen] at h
      by_cases hm : e ∈ bucketGet bs l
      · rw [if_pos hm] at h
        exact Or.inl h
      · rw [if_neg hm] at h
        rcases List.mem_cons.mp h with rfl | hh
        · exact Or.inr ⟨rfl, rfl⟩
        · exact Or.inl hh
    · rw [bucketGet_insert_ne _ _ hb] at h
      exact Or.inl h
  · rw [bucketInsert_oob _ _ _ (by omega)] at h
    exact Or.inl h

theorem mem_of_mem_bucketGet_erase {bs : List (List Nat)} {l e b x : Nat}
    (h : x ∈ bucketGet (bucketErase bs l e) b) : x ∈ bucketGet bs b := by
  by_cases hlen : l < bs.length
  · by_cases hb : l = b
    · subst hb
      rw [bucketGet_erase_self _ _ _ hlen] at h
      exact List.mem_of_mem_erase h
    · rwa [bucketGet_erase_ne _ _ hb] at h
  · rwa [bucketErase_oob _ _ _ (by omega)] at h

theorem mem_bucketGet_erase_of_ne {bs : List (List Nat)} {l e b x : Nat}
    (hx : x ≠ e) : x ∈ bucketGet (bucketErase bs l e) b ↔ x ∈ bucketGet bs b := by
  by_cases hlen : l < bs.length
  · by_cases hb : l = b
    · subst hb
      rw [bucketGet_erase_self _ _ _ hlen]
      exact List.mem_erase_of_ne hx
    · rw [bucketGet_erase_ne _ _ hb]
  · rw [bucketErase_oob _ _ _ (by omega)]

theorem not_mem_bucketGet_erase_self {bs : List (List Nat)} {l e : Nat}
    (hnd : (bucketGet bs l).Nodup) (hlen : l < bs.length) :
    e ∉ bucketGet (bucketErase bs l e) l := by
  rw [bucketGet_erase_self _ _ _ hlen]
  intro h
  exact absurd rfl (hnd.mem_erase_iff.mp h).1

theorem nodup_bucketGet_insert {bs : List (List Nat)} {l e : Nat}
    (hnd : ∀ b, (bucketGet bs b).Nodup) (b : Nat) :
    (bucketGet (bucketInsert bs l e) b).Nodup := by
  by_cases hlen : l < bs.length
  · by_cases hb : l = b
    · subst hb
      rw [bucketGet_insert_self _ _ _ hlen]
      by_cases hm : e ∈ bucketGet bs l
      · simpa [hm] using hnd l
      · rw [if_neg hm, List.nodup_cons]
        exact ⟨hm, hnd l⟩
    · rw [bucketGet_insert_ne _ _ hb]
      exact hnd b
  · rw [bucketInsert_oob _ _ _ (by omega)]
    exact hnd b

theorem nodup_bucketGet_erase {bs : List (List Nat)} {l e : Nat}
    (hnd : ∀ b, (bucketGet bs b).Nodup) (b : Nat) :
    (bucketGet (bucketErase bs l e) b).Nodup := by
  by_cases hlen : l < bs.length
  · by_cases hb : l = b
    · subst hb
      rw [bucketGet_erase_self _ _ _ hlen]
      exact (hnd l).erase e
    · rw [bucketGet_erase_ne _ _ hb]
      exact hnd b
  · rw [bucketErase_oob _ _ _ (by omega)]
    exact hnd b

/-! ### The peeling invariant

Observed between iterations of the loops.  E is the number of edges,
mx the maximum initial support, level the level being processed. -/

structure InvBase (E mx level : Nat) (st : PeelState) : Prop where
  supLen : st.support.length = E
  comLen : st.completed.length = E
  truLen : st.trussness.length = E
  bucLen : st.buckets.length = mx + 1
  supMax : ∀ e, e < E → st.support.getD e 0 ≤ mx
  mem_lt : ∀ b e, e ∈ bucketGet st.buckets b → e < E
  mem_sup : ∀ b e, e ∈ bucketGet st.buckets b → st.support.getD e 0 = b
  mem_comp : ∀ b e, e ∈ bucketGet st.buckets b →
    (st.completed.getD e false = true ↔ b = 0)
  bnodup : ∀ b, (bucketGet st.buckets b).Nodup
  zeroMem : ∀ e, e < E → st.support.getD e 0 = 0 → e ∈ bucketGet st.buckets 0
  supLevel : ∀ e, e < E → st.completed.getD e false = false →
    level ≤ st.support.getD e 0
  trussSome : ∀ e, e < E →
    (st.completed.getD e false = true ↔ (st.trussness.getD e none).isSome = true)
  trussVal : ∀ e v, e < E → st.trussness.getD e none = some v → 2 ≤ v ∧ v ≤ mx + 2
  logCount : ∀ e, e < E → (st.log.filter (fun p => p.1 == e)).length =
    (if st.completed.getD e false = true then 1 else 0)
  logVal : ∀ p, p ∈ st.log → st.trussness.getD p.1 none = some (p.2 + 2)

/-- Invariant between seed iterations: every uncompleted edge sits in
the bucket of its support. -/
structure Inv (E mx level : Nat) (st : PeelState)
    extends InvBase E mx level st : Prop where
  cover : ∀ e, e < E → st.completed.getD e false = false →
    e ∈ bucketGet st.buckets (st.support.getD e 0)

/-- Invariant while one seed is being processed: the seed has been
popped from its bucket but is not yet completed. -/
structure InvMid (E mx level seed : Nat) (st : PeelState)
    extends InvBase E mx level st : Prop where
  coverExc : ∀ e, e < E → st.completed.getD e false = false → e ≠ seed →
    e ∈ bucketGet st.buckets (st.support.getD e 0)
  seedLt : seed < E
  seedUnc : st.completed.getD seed false = false
  seedSup : st.support.getD seed 0 = level
  seedOut : ∀ b, seed ∉ bucketGet st.buckets b

theorem demote_completed (level e : Nat) (st : PeelState) :
    (demote level e st).completed = st.completed := by
  unfold demote
  split <;> rfl

theorem demote_trussness (level e : Nat) (st : PeelState) :
    (demote level e st).trussness = st.trussness := by
  unfold demote
  split <;> rfl

theorem demote_log (level e : Nat) (st : PeelState) :
    (demote level e st).log = st.log := by
  unfold demote
  split <;> rfl

theorem demote_noop {level e : Nat} {st : PeelState}
    (h : ¬ level < st.support.getD e 0) : demote level e st = st := by
  unfold demote
  rw [if_neg h]

theorem demote_pos {level e : Nat} {st : PeelState}
    (h : level < st.support.getD e 0) :
    demote level e st =
      { st with
        support := st.support.set e (st.support.getD e 0 - 1),
        buckets := bucketErase
          (bucketInsert st.buckets (st.support.getD e 0 - 1) e)
          (st.support.getD e 0) e } := by
  have h1 : st.support.getD e 0 - 1 + 1 = st.support.getD e 0 := by omega
  simp only [demote, if_pos h, h1]

theorem demote_support_length (level e : Nat) (st : PeelState) :
    (demote level e st).support.length = st.support.length := by
  unfold demote
  split
  · exact List.length_set _ _ _
  · rfl

theorem demote_buckets_length (level e : Nat) (st : PeelState) :
    (demote level e st).buckets.length = st.buckets.length := by
  unfold demote
  split
  · exact (length_bucketErase _ _ _).trans (length_bucketInsert _ _ _)
  · rfl

theorem demote_support_self {level e : Nat} {st : PeelState}
    (h : level < st.support.getD e 0) :
    (demote level e st).support.getD e 0 = st.support.getD e 0 - 1 := by
  rw [demote_pos h]
  exact getD_set_self _ _ _ _ (getD_pos_lt_length _ _ (by omega))

theorem demote_support_ne {level e : Nat} {st : PeelState} {x : Nat} (hx : x ≠ e) :
    (demote level e st).support.getD x 0 = st.support.getD x 0 := by
  unfold demote
  split
  · exact getD_set_ne _ _ _ (fun hh => hx hh.symm)
  · rfl

theorem demote_mem_ne {level e : Nat} {st : PeelState} {x b : Nat} (hx : x ≠ e) :
    x ∈ bucketGet (demote level e st).buckets b ↔ x ∈ bucketGet st.buckets b := by
  by_cases h : level < st.support.getD e 0
  · rw [demote_pos h]
    show x ∈ bucketGet (bucketErase _ _ _) b ↔ _
    rw [mem_bucketGet_erase_of_ne hx]
    constructor
    · intro hm
      rcases of_mem_bucketGet_insert hm with hm | ⟨rfl, _⟩
      · exact hm
      · exact absurd rfl hx
    · exact mem_bucketGet_insert_of_mem
  · rw [demote_noop h]

theorem demote_mem_cases {level e : Nat} {st : PeelState} {x b : Nat}
    (hm : x ∈ bucketGet (demote level e st).buckets b) :
    x ∈ bucketGet st.buckets b ∨ (x = e ∧ b = st.support.getD e 0 - 1) := by
  by_cases h : level < st.support.getD e 0
  · rw [demote_pos h] at hm
    replace hm := mem_of_mem_bucketGet_erase hm
    rcases of_mem_bucketGet_insert hm with hm | ⟨rfl, rfl⟩
    · exact Or.inl hm
    · exact Or.inr ⟨rfl, rfl⟩
  · rw [demote_noop h] at hm
    exact Or.inl hm

theorem demote_mem_new {level e : Nat} {st : PeelState}
    (h : level < st.support.getD e 0)
    (hlen : st.support.getD e 0 - 1 < st.buckets.length) :
    e ∈ bucketGet (demote level e st).buckets (st.support.getD e 0 - 1) := by
  rw [demote_pos h]
  show e ∈ bucketGet (bucketErase _ _ _) _
  rw [bucketGet_erase_ne _ _
    (show st.support.getD e 0 ≠ st.support.getD e 0 - 1 by omega)]
  exact mem_bucketGet_insert_self hlen

theorem demote_not_mem_old {level e : Nat} {st : PeelState}
    (h : level < st.support.getD e 0)
    (hnd : ∀ b, (bucketGet st.buckets b).Nodup)
    (hlen : st.support.getD e 0 < st.buckets.length) :
    e ∉ bucketGet (demote level e st).buckets (st.support.getD e 0) := by
  rw [demote_pos h]
  exact not_mem_bucketGet_erase_self (nodup_bucketGet_insert hnd _)
    (by rw [length_bucketInsert]; exact hlen)

theorem demote_bnodup {level e : Nat} {st : PeelState}
    (hnd : ∀ b, (bucketGet st.buckets b).Nodup) (b : Nat) :
    (bucketGet (demote level e st).buckets b).Nodup := by
  unfold demote
  split
  · exact nodup_bucketGet_erase (nodup_bucketGet_insert hnd) b
  · exact hnd b

/-- Demoting an uncompleted edge preserves the mid-iteration
invariant. -/
theorem demote_invMid {E mx level seed : Nat} {st : PeelState} (hlev : 1 ≤ level)
    (inv : InvMid E mx level seed st) (e : Nat)
    (hunc : st.completed.getD e false = false) :
    InvMid E mx level seed (demote level e st) := by
  by_cases hgt : level < st.support.getD e 0
  case neg => rw [demote_noop hgt]; exact inv
  have he : e < E := by
    have h2 := getD_pos_lt_length st.support e (by omega)
    rw [inv.supLen] at h2
    exact h2
  have heseed : e ≠ seed := by
    intro h
    rw [h, inv.seedSup] at hgt
    omega
  have hsmx : st.support.getD e 0 ≤ mx := inv.supMax e he
  have hlt1 : st.support.getD e 0 - 1 < st.buckets.length := by
    rw [inv.bucLen]; omega
  have hlt2 : st.support.getD e 0 < st.buckets.length := by
    rw [inv.bucLen]; omega
  have hbe : ∀ b, e ∈ bucketGet (demote level e st).buckets b →
      b = st.support.getD e 0 - 1 := by
    intro b hm
    rcases demote_mem_cases hm with hm2 | ⟨_, rfl⟩
    · have hb := inv.mem_sup b e hm2
      subst hb
      exact absurd hm (demote_not_mem_old hgt inv.bnodup hlt2)
    · rfl
  have hcom : (demote level e st).completed = st.completed := demote_completed _ _ _
  have htru : (demote level e st).trussness = st.trussness := demote_trussness _ _ _
  have hlog : (demote level e st).log = st.log := demote_log _ _ _
  refine
    { supLen := by rw [demote_support_length, inv.supLen]
      comLen := by rw [hcom, inv.comLen]
      truLen := by rw [htru, inv.truLen]
      bucLen := by rw [demote_buckets_length, inv.bucLen]
      supMax := ?_
      mem_lt := ?_
      mem_sup := ?_
      mem_comp := ?_
      bnodup := demote_bnodup inv.bnodup
      zeroMem := ?_
      supLevel := ?_
      trussSome := by rw [htru, hcom]; exact inv.trussSome
      trussVal := by rw [htru]; exact inv.trussVal
      logCount := by rw [hlog, hcom]; exact inv.logCount
      logVal := by rw [hlog, htru]; exact inv.logVal
      coverExc := ?_
      seedLt := inv.seedLt
      seedUnc := by rw [hcom]; exact inv.seedUnc
      seedSup := by rw [demote_support_ne heseed.symm]; exact inv.seedSup
      seedOut := ?_ }
  · intro x hx
    by_cases hxe : x = e
    · subst hxe
      rw [demote_support_self hgt]
      omega
    · rw [demote_support_ne hxe]
      exact inv.supMax x hx
  · intro b x hm
    rcases demote_mem_cases hm with hm2 | ⟨rfl, _⟩
    · exact inv.mem_lt b x hm2
    · exact he
  · intro b x hm
    by_cases hxe : x = e
    · subst hxe
      rw [hbe b hm, demote_support_self hgt]
    · rw [demote_support_ne hxe]
      exact inv.mem_sup b x ((demote_mem_ne hxe).mp hm)
  · intro b x hm
    by_cases hxe : x = e
    · subst hxe
      rw [hcom, hbe b hm, hunc]
      constructor
      · intro hcontr
        simp at hcontr
      · intro h0
        exact absurd h0 (by omega)
    · rw [hcom]
      exact inv.mem_comp b x ((demote_mem_ne hxe).mp hm)
  · intro x hx h0
    by_cases hxe : x = e
    · subst hxe
      rw [demote_support_self hgt] at h0
      omega
    · rw [demote_support_ne hxe] at h0
      exact (demote_mem_ne hxe).mpr (inv.zeroMem x hx h0)
  · intro x hx hc
    by_cases hxe : x = e
    · subst hxe
      rw [demote_support_self hgt]
      omega
    · rw [demote_support_ne hxe]
      rw [hcom] at hc
      exact inv.supLevel x hx hc
  · intro x hx hc hxs
    rw [hcom] at hc
    by_cases hxe : x = e
    · subst hxe
      rw [demote_support_self hgt]
      exact demote_mem_new hgt hlt1
    · rw [demote_support_ne hxe]
      exact (demote_mem_ne hxe).mpr (inv.coverExc x hx hc hxs)
  · intro b hm
    rcases demote_mem_cases hm with hm2 | ⟨hse, _⟩
    · exact inv.seedOut b hm2
    · exact heseed hse.symm

theorem handleCommon_invMid (g : Graph) {E mx level seed : Nat} {st : PeelState}
    (hlev : 1 ≤ level) (inv : InvMid E mx level seed st) (fromV toV n : Nat) :
    InvMid E mx level seed (handleCommon g level fromV toV st n) := by
  unfold handleCommon
  cases h1 : get_eid g fromV n with
  | none => exact inv
  | some e1 =>
    cases h2 : get_eid g toV n with
    | none => exact inv
    | some e2 =>
      show InvMid E mx level seed
        (if (st.completed.getD e1 false || st.completed.getD e2 false) = true
          then st else demote level e2 (demote level e1 st))
      by_cases hc : (st.completed.getD e1 false || st.completed.getD e2 false) = true
      · rw [if_pos hc]
        exact inv
      · rw [if_neg hc]
        rw [Bool.or_eq_true] at hc
        push_neg at hc
        have hc1 : st.completed.getD e1 false = false := Bool.eq_false_iff.mpr hc.1
        have hc2 : st.completed.getD e2 false = false := Bool.eq_false_iff.mpr hc.2
        have inv1 := demote_invMid hlev inv e1 hc1
        have hc2d : (demote level e1 st).completed.getD e2 false = false := by
          rw [demote_completed]
          exact hc2
        exact demote_invMid hlev inv1 e2 hc2d

theorem handleCommon_completed (g : Graph) (level fromV toV : Nat) (st : PeelState)
    (n : Nat) : (handleCommon g level fromV toV st n).completed = st.completed := by
  unfold handleCommon
  split
  · split
    · rfl
    · rw [demote_completed, demote_completed]
  · rfl

theorem handleCommon_trussness (g : Graph) (level fromV toV : Nat) (st : PeelState)
    (n : Nat) : (handleCommon g level fromV toV st n).trussness = st.trussness := by
  unfold handleCommon
  split
  · split
    · rfl
    · rw [demote_trussness, demote_trussness]
  · rfl

theorem handleCommon_log (g : Graph) (level fromV toV : Nat) (st : PeelState)
    (n : Nat) : (handleCommon g level fromV toV st n).log = st.log := by
  unfold handleCommon
  split
  · split
    · rfl
    · rw [demote_log, demote_log]
  · rfl

theorem foldCommon_invMid (g : Graph) {E mx level seed : Nat} (hlev : 1 ≤ level)
    (fromV toV : Nat) :
    ∀ (ns : List Nat) (st : PeelState), InvMid E mx level seed st →
      InvMid E mx level seed (ns.foldl (handleCommon g level fromV toV) st)
  | [], _, inv => inv
  | n :: ns, st, inv =>
    foldCommon_invMid g hlev fromV toV ns _ (handleCommon_invMid g hlev inv fromV toV n)

theorem foldCommon_completed (g : Graph) (level fromV toV : Nat) :
    ∀ (ns : List Nat) (st : PeelState),
      (ns.foldl (handleCommon g level fromV toV) st).completed = st.completed
  | [], _ => rfl
  | n :: ns, st =>
    (foldCommon_completed g level fromV toV ns _).trans
      (handleCommon_completed g level fromV toV st n)

theorem foldCommon_trussness (g : Graph) (level fromV toV : Nat) :
    ∀ (ns : List Nat) (st : PeelState),
      (ns.foldl (handleCommon g level fromV toV) st).trussness = st.trussness
  | [], _ => rfl
  | n :: ns, st =>
    (foldCommon_trussness g level fromV toV ns _).trans
      (handleCommon_trussness g level fromV toV st n)

theorem foldCommon_log (g : Graph) (level fromV toV : Nat) :
    ∀ (ns : List Nat) (st : PeelState),
      (ns.foldl (handleCommon g level fromV toV) st).log = st.log
  | [], _ => rfl
  | n :: ns, st =>
    (foldCommon_log g level fromV toV ns _).trans
      (handleCommon_log g level fromV toV st n)

/-- An edge sitting in a bucket of positive level is not completed. -/
theorem bucket_unc {E mx level : Nat} {st : PeelState} (hlev : 1 ≤ level)
    (inv : Inv E mx level st) {seed b : Nat} (hblev : 1 ≤ b)
    (hmem : seed ∈ bucketGet st.buckets b) :
    st.completed.getD seed false = false := by
  cases hcc : st.completed.getD seed false
  · rfl
  · exact absurd ((inv.mem_comp b seed hmem).mp hcc) (by omega)

/-- Popping the first edge of the current bucket turns the invariant
into the mid-iteration invariant. -/
theorem pop_invMid {E mx level : Nat} {st : PeelState} (hlev : 1 ≤ level)
    (inv : Inv E mx level st) {seed : Nat}
    (hmem : seed ∈ bucketGet st.buckets level) :
    InvMid E mx level seed
      { st with buckets := bucketErase st.buckets level seed } := by
  have hlenb : level < st.buckets.length := by
    by_contra hlt
    rw [bucketGet, List.getD_eq_default _ _ (by omega)] at hmem
    simp at hmem
  have hseedlt : seed < E := inv.mem_lt level seed hmem
  have hseedsup : st.support.getD seed 0 = level := inv.mem_sup level seed hmem
  have hseedunc : st.completed.getD seed false = false :=
    bucket_unc hlev inv hlev hmem
  refine
    { supLen := inv.supLen
      comLen := inv.comLen
      truLen := inv.truLen
      bucLen := by
        show (bucketErase st.buckets level seed).length = mx + 1
        rw [length_bucketErase]
        exact inv.bucLen
      supMax := inv.supMax
      mem_lt := ?_
      mem_sup := ?_
      mem_comp := ?_
      bnodup := ?_
      zeroMem := ?_
      supLevel := inv.supLevel
      trussSome := inv.trussSome
      trussVal := inv.trussVal
      logCount := inv.logCount
      logVal := inv.logVal
      coverExc := ?_
      seedLt := hseedlt
      seedUnc := hseedunc
      seedSup := hseedsup
      seedOut := ?_ }
  · intro b x hm
    exact inv.mem_lt b x (mem_of_mem_bucketGet_erase hm)
  · intro b x hm
    exact inv.mem_sup b x (mem_of_mem_bucketGet_erase hm)
  · intro b x hm
    exact inv.mem_comp b x (mem_of_mem_bucketGet_erase hm)
  · exact nodup_bucketGet_erase inv.bnodup
  · intro x hx h0
    have hxs : x ≠ seed := by
      intro hh
      rw [hh, hseedsup] at h0
      omega
    exact (mem_bucketGet_erase_of_ne hxs).mpr (inv.zeroMem x hx h0)
  · intro x hx hc hxs
    exact (mem_bucketGet_erase_of_ne hxs).mpr (inv.cover x hx hc)
  · intro b hm
    by_cases hbl : level = b
    · subst hbl
      exact not_mem_bucketGet_erase_self (inv.bnodup level) hlenb hm
    · rw [bucketGet_erase_ne _ _ hbl] at hm
      have := inv.mem_sup b seed hm
      rw [hseedsup] at this
      exact hbl this

/-- Finalizing the seed restores the between-iterations invariant. -/
theorem finalize_inv {E mx level seed : Nat} {st : PeelState} (hlev : 1 ≤ level)
    (hle : level ≤ mx) (inv : InvMid E mx level seed st) :
    Inv E mx level
      { st with
        trussness := st.trussness.set seed (some (level + 2)),
        completed := st.completed.set seed true,
        log := st.log ++ [(seed, level)] } := by
  have hseedE : seed < E := inv.seedLt
  have hcomlt : seed < st.completed.length := by
    rw [inv.comLen]
    exact hseedE
  have htrult : seed < st.trussness.length := by
    rw [inv.truLen]
    exact hseedE
  have hcount0 : (st.log.filter (fun p => p.1 == seed)).length = 0 := by
    have h := inv.logCount seed hseedE
    rw [inv.seedUnc] at h
    simpa using h
  have hfilnil : st.log.filter (fun p => p.1 == seed) = [] :=
    List.length_eq_zero.mp hcount0
  have hnotin : ∀ p, p ∈ st.log → p.1 ≠ seed := by
    intro p hp hps
    have hmem : p ∈ st.log.filter (fun q => q.1 == seed) :=
      List.mem_filter.mpr ⟨hp, by simp [hps]⟩
    rw [hfilnil] at hmem
    simp at hmem
  refine
    { supLen := inv.supLen
      comLen := by
        show (st.completed.set seed true).length = E
        rw [List.length_set]
        exact inv.comLen
      truLen := by
        show (st.trussness.set seed (some (level + 2))).length = E
        rw [List.length_set]
        exact inv.truLen
      bucLen := inv.bucLen
      supMax := inv.supMax
      mem_lt := inv.mem_lt
      mem_sup := inv.mem_sup
      mem_comp := ?_
      bnodup := inv.bnodup
      zeroMem := inv.zeroMem
      supLevel := ?_
      trussSome := ?_
      trussVal := ?_
      logCount := ?_
      logVal := ?_
      cover := ?_ }
  · intro b x hm
    have hxs : x ≠ seed := by
      intro hh
      exact inv.seedOut b (hh ▸ hm)
    show (st.completed.set seed true).getD x false = true ↔ b = 0
    rw [getD_set_ne _ _ _ (fun hh => hxs hh.symm)]
    exact inv.mem_comp b x hm
  · intro x hx hc
    by_cases hxs : x = seed
    · subst hxs
      rw [show ({ st with
            trussness := st.trussness.set x (some (level + 2)),
            completed := st.completed.set x true,
            log := st.log ++ [(x, level)] } : PeelState).completed
          = st.completed.set x true from rfl] at hc
      rw [getD_set_self _ _ _ _ hcomlt] at hc
      simp at hc
    · rw [show ({ st with
            trussness := st.trussness.set seed (some (level + 2)),
            completed := st.completed.set seed true,
            log := st.log ++ [(seed, level)] } : PeelState).completed
          = st.completed.set seed true from rfl] at hc
      rw [getD_set_ne _ _ _ (fun hh => hxs hh.symm)] at hc
      exact inv.supLevel x hx hc
  · intro x hx
    by_cases hxs : x = seed
    · subst hxs
      show (st.completed.set x true).getD x false = true ↔
        ((st.trussness.set x (some (level + 2))).getD x none).isSome = true
      rw [getD_set_self _ _ _ _ hcomlt, getD_set_self _ _ _ _ htrult]
      simp
    · show (st.completed.set seed true).getD x false = true ↔
        ((st.trussness.set seed (some (level + 2))).getD x none).isSome = true
      rw [getD_set_ne _ _ _ (fun hh => hxs hh.symm),
        getD_set_ne _ _ _ (fun hh => hxs hh.symm)]
      exact inv.trussSome x hx
  · intro x v hx hv
    by_cases hxs : x = seed
    · subst hxs
      rw [show ({ st with
            trussness := st.trussness.set x (some (level + 2)),
            completed := st.completed.set x true,
            log := st.log ++ [(x, level)] } : PeelState).trussness
          = st.trussness.set x (some (level + 2)) from rfl] at hv
      rw [getD_set_self _ _ _ _ htrult] at hv
      cases hv
      omega
    · rw [show ({ st with
            trussness := st.trussness.set seed (some (level + 2)),
            completed := st.completed.set seed true,
            log := st.log ++ [(seed, level)] } : PeelState).trussness
          = st.trussness.set seed (some (level + 2)) from rfl] at hv
      rw [getD_set_ne _ _ _ (fun hh => hxs hh.symm)] at hv
      exact inv.trussVal x v hx hv
  · intro x hx
    show ((st.log ++ [(seed, level)]).filter (fun p => p.1 == x)).length =
      if (st.completed.set seed true).getD x false = true then 1 else 0
    rw [List.filter_append, List.length_append]
    by_cases hxs : x = seed
    · subst hxs
      rw [hcount0, getD_set_self _ _ _ _ hcomlt]
      simp
    · rw [getD_set_ne _ _ _ (fun hh => hxs hh.symm)]
      have hne0 : ¬ seed = x := fun hh => hxs hh.symm
      have hne : ¬ (seed == x) = true := by simpa using hne0
      have hone : (([(seed, level)] : List (Nat × Nat)).filter
          (fun p => p.1 == x)).length = 0 := by
        simp [hne]
      rw [hone, inv.logCount x hx]
      omega
  · intro p hp
    rw [show ({ st with
          trussness := st.trussness.set seed (some (level + 2)),
          completed := st.completed.set seed true,
          log := st.log ++ [(seed, level)] } : PeelState).log
        = st.log ++ [(seed, level)] from rfl] at hp
    rcases List.mem_append.mp hp with hp | hp
    · show (st.trussness.set seed (some (level + 2))).getD p.1 none = some (p.2 + 2)
      rw [getD_set_ne _ _ _ (fun hh => (hnotin p hp) hh.symm)]
      exact inv.logVal p hp
    · have hpe : p = (seed, level) := by simpa using hp
      subst hpe
      show (st.trussness.set seed (some (level + 2))).getD seed none = some (level + 2)
      rw [getD_set_self _ _ _ _ htrult]
  · intro x hx hc
    by_cases hxs : x = seed
    · subst hxs
      rw [show ({ st with
            trussness := st.trussness.set x (some (level + 2)),
            completed := st.completed.set x true,
            log := st.log ++ [(x, level)] } : PeelState).completed
          = st.completed.set x true from rfl] at hc
      rw [getD_set_self _ _ _ _ hcomlt] at hc
      simp at hc
    · rw [show ({ st with
            trussness := st.trussness.set seed (some (level + 2)),
            completed := st.completed.set seed true,
            log := st.log ++ [(seed, level)] } : PeelState).completed
          = st.completed.set seed true from rfl] at hc
      rw [getD_set_ne _ _ _ (fun hh => hxs hh.symm)] at hc
      exact inv.coverExc x hx hc hxs

/-- One full seed iteration preserves the invariant. -/
theorem seedStep_inv (g : Graph) {E mx level : Nat} {st : PeelState}
    (hlev : 1 ≤ level) (hle : level ≤ mx) (inv : Inv E mx level st)
    {seed : Nat} (hmem : seed ∈ bucketGet st.buckets level) :
    Inv E mx level (seedStep g level seed st) :=
  finalize_inv hlev hle
    (foldCommon_invMid g hlev _ _ _ _ (pop_invMid hlev inv hmem))

theorem seedStep_completed (g : Graph) (level seed : Nat) (st : PeelState) :
    (seedStep g level seed st).completed = st.completed.set seed true := by
  show ((commonNeighbors g (edgeEnds g seed).1 (edgeEnds g seed).2).foldl
      (handleCommon g level (edgeEnds g seed).1 (edgeEnds g seed).2)
      { st with buckets := bucketErase st.buckets level seed }).completed.set seed true
    = st.completed.set seed true
  rw [foldCommon_completed]

theorem seedStep_log (g : Graph) (level seed : Nat) (st : PeelState) :
    (seedStep g level seed st).log = st.log ++ [(seed, level)] := by
  show ((commonNeighbors g (edgeEnds g seed).1 (edgeEnds g seed).2).foldl
      (handleCommon g level (edgeEnds g seed).1 (edgeEnds g seed).2)
      { st with buckets := bucketErase st.buckets level seed }).log ++ [(seed, level)]
    = st.log ++ [(seed, level)]
  rw [foldCommon_log]

/-- Number of uncompleted edges; each seed iteration lowers it by
one, which bounds the needed fuel. -/
def uncompleted (st : PeelState) : Nat := st.completed.count false

theorem count_false_set_true (l : List Bool) :
    ∀ (i : Nat), i < l.length → l.getD i false = false →
      (l.set i true).count false + 1 = l.count false := by
  induction l with
  | nil =>
    intro i hi
    simp at hi
  | cons x xs ih =>
    intro i hi h
    cases i with
    | zero =>
      simp only [List.getD_cons_zero] at h
      subst h
      simp [List.count_cons]
    | succ n =>
      simp only [List.getD_cons_succ] at h
      have hn : n < xs.length := by simpa using hi
      have hrec := ih n hn h
      simp only [List.set_cons_succ, List.count_cons]
      omega

theorem count_false_pos (l : List Bool) :
    ∀ (i : Nat), i < l.length → l.getD i false = false → 0 < l.count false := by
  induction l with
  | nil =>
    intro i hi
    simp at hi
  | cons x xs ih =>
    intro i hi h
    cases i with
    | zero =>
      simp only [List.getD_cons_zero] at h
      subst h
      simp [List.count_cons]
    | succ n =>
      simp only [List.getD_cons_succ] at h
      have hrec := ih n (by simpa using hi) h
      simp only [List.count_cons]
      omega

theorem seedStep_uncompleted (g : Graph) {E mx level : Nat} {st : PeelState}
    (hlev : 1 ≤ level) (inv : Inv E mx level st) {seed : Nat}
    (hmem : seed ∈ bucketGet st.buckets level) :
    uncompleted (seedStep g level seed st) + 1 = uncompleted st := by
  have hlt : seed < st.completed.length := by
    rw [inv.comLen]
    exact inv.mem_lt level seed hmem
  have hunc : st.completed.getD seed false = false := bucket_unc hlev inv hlev hmem
  unfold uncompleted
  rw [seedStep_completed]
  exact count_false_set_true st.completed seed hlt hunc

theorem whileN_zero (g : Graph) (level : Nat) (st : PeelState) :
    whileN g level 0 st = st := rfl

theorem whileN_succ_nil (g : Graph) (level fuel : Nat) (st : PeelState)
    (hb : bucketGet st.buckets level = []) :
    whileN g level (fuel + 1) st = st := by
  unfold whileN
  rw [hb]

theorem whileN_succ_cons (g : Graph) (level fuel : Nat) (st : PeelState)
    {seed : Nat} {rest : List Nat}
    (hb : bucketGet st.buckets level = seed :: rest) :
    whileN g level (fuel + 1) st = whileN g level fuel (seedStep g level seed st) := by
  conv_lhs => unfold whileN
  rw [hb]

/-- With fuel at least the number of uncompleted edges, the while loop
terminates with the current bucket empty and the invariant intact. -/
theorem whileN_inv (g : Graph) {E mx level : Nat} (hlev : 1 ≤ level)
    (hle : level ≤ mx) :
    ∀ (fuel : Nat) (st : PeelState), Inv E mx level st → uncompleted st ≤ fuel →
      Inv E mx level (whileN g level fuel st) ∧
        bucketGet (whileN g level fuel st).buckets level = [] := by
  intro fuel
  induction fuel with
  | zero =>
    intro st inv hf
    rw [whileN_zero]
    refine ⟨inv, ?_⟩
    cases hb : bucketGet st.buckets level with
    | nil => rfl
    | cons seed rest =>
      have hmem : seed ∈ bucketGet st.buckets level := by
        rw [hb]
        exact List.mem_cons_self _ _
      have hunc := bucket_unc hlev inv hlev hmem
      have hlt : seed < st.completed.length := by
        rw [inv.comLen]
        exact inv.mem_lt level seed hmem
      have hpos := count_false_pos st.completed seed hlt hunc
      unfold uncompleted at hf
      omega
  | succ fuel ih =>
    intro st inv hf
    cases hb : bucketGet st.buckets level with
    | nil =>
      rw [whileN_succ_nil g level fuel st hb]
      exact ⟨inv, hb⟩
    | cons seed rest =>
      rw [whileN_succ_cons g level fuel st hb]
      have hmem : seed ∈ bucketGet st.buckets level := by
        rw [hb]
        exact List.mem_cons_self _ _
      have hstep := seedStep_inv g hlev hle inv hmem
      have hcnt := seedStep_uncompleted g hlev inv hmem
      exact ih _ hstep (by omega)

/-- The invariant is preserved by any number of while iterations. -/
theorem whileN_inv_partial (g : Graph) {E mx level : Nat} (hlev : 1 ≤ level)
    (hle : level ≤ mx) :
    ∀ (fuel : Nat) (st : PeelState), Inv E mx level st →
      Inv E mx level (whileN g level fuel st) := by
  intro fuel
  induction fuel with
  | zero =>
    intro st inv
    exact inv
  | succ fuel ih =>
    intro st inv
    cases hb : bucketGet st.buckets level with
    | nil =>
      rw [whileN_succ_nil g level fuel st hb]
      exact inv
    | cons seed rest =>
      rw [whileN_succ_cons g level fuel st hb]
      exact ih _ (seedStep_inv g hlev hle inv (by rw [hb]; exact List.mem_cons_self _ _))

/-- When the current bucket has emptied, the invariant holds at the
next level: every uncompleted edge now has support above the finished
level. -/
theorem inv_advance {E mx level : Nat} {st : PeelState} (inv : Inv E mx level st)
    (hb : bucketGet st.buckets level = []) : Inv E mx (level + 1) st := by
  refine
    { supLen := inv.supLen, comLen := inv.comLen, truLen := inv.truLen
      bucLen := inv.bucLen, supMax := inv.supMax, mem_lt := inv.mem_lt
      mem_sup := inv.mem_sup, mem_comp := inv.mem_comp, bnodup := inv.bnodup
      zeroMem := inv.zeroMem, supLevel := ?_, trussSome := inv.trussSome
      trussVal := inv.trussVal, logCount := inv.logCount, logVal := inv.logVal
      cover := inv.cover }
  intro x hx hc
  have h1 := inv.supLevel x hx hc
  have h2 := inv.cover x hx hc
  by_cases hq : st.support.getD x 0 = level
  · rw [hq, hb] at h2
    simp at h2
  · omega

theorem peelLevels_zero (g : Graph) (fuel level : Nat) (st : PeelState) :
    peelLevels g fuel 0 level st = st := rfl

theorem peelLevels_succ (g : Graph) (fuel k level : Nat) (st : PeelState) :
    peelLevels g fuel (k + 1) level st =
      peelLevels g fuel k (level + 1) (whileN g level fuel st) := rfl

theorem uncompleted_le (st : PeelState) {E : Nat} (h : st.completed.length = E) :
    uncompleted st ≤ E := by
  unfold uncompleted
  rw [← h]
  exact List.count_le_length _ _

/-- Running the level loop with fuel E advances the invariant across
all processed levels. -/
theorem peelLevels_inv (g : Graph) {E mx : Nat} :
    ∀ (k level : Nat) (st : PeelState), 1 ≤ level → level + k ≤ mx + 1 →
      Inv E mx level st → Inv E mx (level + k) (peelLevels g E k level st) := by
  intro k
  induction k with
  | zero =>
    intro level st _ _ inv
    exact inv
  | succ k ih =>
    intro level st h1 h2 inv
    rw [peelLevels_succ]
    have hw := whileN_inv g h1 (by omega) E st inv (uncompleted_le st inv.comLen)
    have hadv := inv_advance hw.1 hw.2
    have hres := ih (level + 1) _ (by omega) (by omega) hadv
    have harith : level + 1 + k = level + (k + 1) := by omega
    rw [harith] at hres
    exact hres

theorem whileN_log_mono (g : Graph) (level : Nat) :
    ∀ (fuel : Nat) (st : PeelState) (p : Nat × Nat),
      p ∈ st.log → p ∈ (whileN g level fuel st).log := by
  intro fuel
  induction fuel with
  | zero =>
    intro st p hp
    exact hp
  | succ fuel ih =>
    intro st p hp
    cases hb : bucketGet st.buckets level with
    | nil =>
      rw [whileN_succ_nil g level fuel st hb]
      exact hp
    | cons seed rest =>
      rw [whileN_succ_cons g level fuel st hb]
      refine ih _ p ?_
      rw [seedStep_log]
      exact List.mem_append_left _ hp

theorem peelLevels_log_mono (g : Graph) (fuel : Nat) :
    ∀ (k level : Nat) (st : PeelState) (p : Nat × Nat),
      p ∈ st.log → p ∈ (peelLevels g fuel k level st).log := by
  intro k
  induction k with
  | zero =>
    intro level st p hp
    exact hp
  | succ k ih =>
    intro level st p hp
    rw [peelLevels_succ]
    exact ih (level + 1) _ p (whileN_log_mono g level fuel st p hp)

/-! ### Initialization lemmas -/

theorem getD_replicate {α : Type} (n : Nat) (a d : α) (i : Nat) :
    (List.replicate n a).getD i d = if i < n then a else d := by
  rw [List.getD_eq_getElem?_getD, List.getElem?_replicate]
  by_cases h : i < n <;> simp [h]

theorem le_foldl_max (l : List Nat) : ∀ (a : Nat), a ≤ l.foldl Nat.max a := by
  induction l with
  | nil =>
    intro a
    exact Nat.le_refl a
  | cons x xs ih =>
    intro a
    exact le_trans (Nat.le_max_left a x) (ih _)

theorem mem_le_foldl_max (l : List Nat) :
    ∀ (a x : Nat), x ∈ l → x ≤ l.foldl Nat.max a := by
  induction l with
  | nil =>
    intro a x hx
    simp at hx
  | cons y ys ih =>
    intro a x hx
    rcases List.mem_cons.mp hx with rfl | hx
    · exact le_trans (Nat.le_max_right a x) (le_foldl_max ys _)
    · exact ih _ x hx

theorem vectorMax_ge {l : List Nat} {m : Nat} (h : vectorMax l = some m) :
    ∀ x ∈ l, x ≤ m := by
  cases l with
  | nil => simp [vectorMax] at h
  | cons x xs =>
    simp only [vectorMax, Option.some_inj] at h
    subst h
    intro y hy
    rcases List.mem_cons.mp hy with rfl | hy
    · exact le_foldl_max xs y
    · exact mem_le_foldl_max xs x y hy

theorem vectorMax_getD {l : List Nat} {m : Nat} (h : vectorMax l = some m) :
    ∀ i, i < l.length → l.getD i 0 ≤ m := by
  intro i hi
  have h2 : l.getD i 0 = l[i] := by
    rw [List.getD_eq_getElem?_getD, List.getElem?_eq_getElem hi]
    rfl
  rw [h2]
  exact vectorMax_ge h _ (List.getElem_mem hi)

theorem vectorMax_isSome {l : List Nat} (h : l ≠ []) : (vectorMax l).isSome = true := by
  cases l with
  | nil => exact absurd rfl h
  | cons x xs => rfl

/-- The bucket-filling fold of lines 177-180, cut off after the first
n edges (the code runs it for all edges). -/
def fillBuckets (support : List Nat) (mx n : Nat) : List (List Nat) :=
  (List.range n).foldl (fun bs i => bucketInsert bs (support.getD i 0) i)
    (List.replicate (mx + 1) [])

theorem initialState_buckets (support : List Nat) (mx : Nat) :
    (initialState support mx).buckets = fillBuckets support mx support.length := rfl

theorem fillBuckets_succ (support : List Nat) (mx n : Nat) :
    fillBuckets support mx (n + 1) =
      bucketInsert (fillBuckets support mx n) (support.getD n 0) n := by
  unfold fillBuckets
  rw [List.range_succ, List.foldl_append]
  rfl

theorem bucketGet_replicate (mx b : Nat) :
    bucketGet (List.replicate (mx + 1) ([] : List Nat)) b = [] := by
  unfold bucketGet
  rw [getD_replicate]
  by_cases h : b < mx + 1 <;> simp [h]

theorem fillBuckets_length (support : List Nat) (mx : Nat) :
    ∀ n, (fillBuckets support mx n).length = mx + 1
  | 0 => by simp [fillBuckets]
  | n + 1 => by
    rw [fillBuckets_succ, length_bucketInsert, fillBuckets_length support mx n]

theorem fillBuckets_mem (support : List Nat) (mx : Nat)
    (hmax : ∀ i, i < support.length → support.getD i 0 ≤ mx) :
    ∀ n, n ≤ support.length → ∀ b e,
      (e ∈ bucketGet (fillBuckets support mx n) b ↔
        e < n ∧ support.getD e 0 = b) := by
  intro n
  induction n with
  | zero =>
    intro _ b e
    rw [show fillBuckets support mx 0 = List.replicate (mx + 1) [] from rfl,
      bucketGet_replicate]
    simp
  | succ n ih =>
    intro hn b e
    rw [fillBuckets_succ]
    constructor
    · intro hm
      rcases of_mem_bucketGet_insert hm with hm2 | ⟨rfl, rfl⟩
      · have hh := (ih (by omega) b e).mp hm2
        exact ⟨by omega, hh.2⟩
      · exact ⟨by omega, rfl⟩
    · rintro ⟨hlt, hsup⟩
      by_cases hen : e = n
      · subst hen
        rw [← hsup]
        refine mem_bucketGet_insert_self ?_
        rw [fillBuckets_length]
        have := hmax e (by omega)
        omega
      · exact mem_bucketGet_insert_of_mem ((ih (by omega) b e).mpr ⟨by omega, hsup⟩)

theorem fillBuckets_nodup (support : List Nat) (mx : Nat) :
    ∀ n b, (bucketGet (fillBuckets support mx n) b).Nodup
  | 0, b => by
    rw [show fillBuckets support mx 0 = List.replicate (mx + 1) [] from rfl,
      bucketGet_replicate]
    exact List.nodup_nil
  | n + 1, b => by
    rw [fillBuckets_succ]
    exact nodup_bucketGet_insert (fillBuckets_nodup support mx n) b

theorem completeEdge0_support (st : PeelState) (e : Nat) :
    (completeEdge0 st e).support = st.support := rfl

theorem fold0_support (l : List Nat) (st : PeelState) :
    (l.foldl completeEdge0 st).support = st.support := by
  induction l generalizing st with
  | nil => rfl
  | cons x xs ih => exact (ih _).trans rfl

theorem fold0_buckets (l : List Nat) (st : PeelState) :
    (l.foldl completeEdge0 st).buckets = st.buckets := by
  induction l generalizing st with
  | nil => rfl
  | cons x xs ih => exact (ih _).trans rfl

theorem fold0_completed_length (l : List Nat) (st : PeelState) :
    (l.foldl completeEdge0 st).completed.length = st.completed.length := by
  induction l generalizing st with
  | nil => rfl
  | cons x xs ih =>
    rw [List.foldl_cons, ih]
    exact List.length_set _ _ _

theorem fold0_trussness_length (l : List Nat) (st : PeelState) :
    (l.foldl completeEdge0 st).trussness.length = st.trussness.length := by
  induction l generalizing st with
  | nil => rfl
  | cons x xs ih =>
    rw [List.foldl_cons, ih]
    exact List.length_set _ _ _

theorem fold0_log (l : List Nat) (st : PeelState) :
    (l.foldl completeEdge0 st).log = st.log ++ l.map (fun e => (e, 0)) := by
  induction l generalizing st with
  | nil => simp
  | cons x xs ih =>
    rw [List.foldl_cons, ih]
    show (st.log ++ [(x, 0)]) ++ _ = _
    rw [List.append_assoc]
    rfl

theorem fold0_completed_getD (l : List Nat) :
    ∀ (st : PeelState), (∀ x ∈ l, x < st.completed.length) → ∀ (e : Nat),
      (l.foldl completeEdge0 st).completed.getD e false =
        (if e ∈ l then true else st.completed.getD e false) := by
  induction l with
  | nil =>
    intro st _ e
    simp
  | cons x xs ih =>
    intro st hl e
    rw [List.foldl_cons]
    have hlen : ∀ y ∈ xs, y < (completeEdge0 st x).completed.length := by
      intro y hy
      show y < (st.completed.set x true).length
      rw [List.length_set]
      exact hl y (List.mem_cons_of_mem _ hy)
    rw [ih _ hlen e]
    by_cases hex : e ∈ xs
    · simp [hex, List.mem_cons]
    · rw [if_neg hex]
      by_cases hx : e = x
      · subst hx
        rw [if_pos (List.mem_cons_self _ _)]
        show (st.completed.set e true).getD e false = true
        exact getD_set_self _ _ _ _ (hl e (List.mem_cons_self _ _))
      · rw [if_neg (by simp [hx, hex])]
        show (st.completed.set x true).getD e false = st.completed.getD e false
        exact getD_set_ne _ _ _ (fun hh => hx hh.symm)

theorem fold0_trussness_getD (l : List Nat) :
    ∀ (st : PeelState), (∀ x ∈ l, x < st.trussness.length) → ∀ (e : Nat),
      (l.foldl completeEdge0 st).trussness.getD e none =
        (if e ∈ l then some 2 else st.trussness.getD e none) := by
  induction l with
  | nil =>
    intro st _ e
    simp
  | cons x xs ih =>
    intro st hl e
    rw [List.foldl_cons]
    have hlen : ∀ y ∈ xs, y < (completeEdge0 st x).trussness.length := by
      intro y hy
      show y < (st.trussness.set x (some 2)).length
      rw [List.length_set]
      exact hl y (List.mem_cons_of_mem _ hy)
    rw [ih _ hlen e]
    by_cases hex : e ∈ xs
    · simp [hex, List.mem_cons]
    · rw [if_neg hex]
      by_cases hx : e = x
      · subst hx
        rw [if_pos (List.mem_cons_self _ _)]
        show (st.trussness.set e (some 2)).getD e none = some 2
        exact getD_set_self _ _ _ _ (hl e (List.mem_cons_self _ _))
      · rw [if_neg (by simp [hx, hex])]
        show (st.trussness.set x (some 2)).getD e none = st.trussness.getD e none
        exact getD_set_ne _ _ _ (fun hh => hx hh.symm)

theorem countFst (l : List Nat) (x : Nat) :
    ((l.map (fun e => (e, 0))).filter (fun p => p.1 == x)).length = l.count x := by
  induction l with
  | nil => rfl
  | cons y ys ih =>
    rw [List.map_cons, List.filter_cons, count_cons_nat]
    by_cases hy : y = x
    · subst hy
      simp [ih]
    · have hb : ¬ (((y, 0) : Nat × Nat).1 == x) = true := by simpa using hy
      simp [hb, ih, hy]

theorem initialState_completed_getD (support : List Nat) (mx e : Nat) :
    (initialState support mx).completed.getD e false = false := by
  show (List.replicate support.length false).getD e false = false
  rw [getD_replicate]
  split <;> rfl

theorem initialState_trussness_getD (support : List Nat) (mx e : Nat) :
    (initialState support mx).trussness.getD e none = none := by
  show (List.replicate support.length (none : Option Nat)).getD e none = none
  rw [getD_replicate]
  split <;> rfl

theorem initialState_mem (support : List Nat) (mx : Nat)
    (hmax : ∀ i, i < support.length → support.getD i 0 ≤ mx) (b e : Nat) :
    e ∈ bucketGet (initialState support mx).buckets b ↔
      (e < support.length ∧ support.getD e 0 = b) := by
  rw [initialState_buckets]
  exact fillBuckets_mem support mx hmax support.length (Nat.le_refl _) b e

theorem initTruss_buckets (support : List Nat) (mx : Nat) :
    (initTruss support mx).buckets = (initialState support mx).buckets :=
  fold0_buckets _ _

theorem initTruss_support (support : List Nat) (mx : Nat) :
    (initTruss support mx).support = support :=
  fold0_support _ _

theorem initTruss_log (support : List Nat) (mx : Nat) :
    (initTruss support mx).log =
      (bucketGet (initialState support mx).buckets 0).map (fun e => (e, 0)) := by
  show ((bucketGet (initialState support mx).buckets 0).foldl completeEdge0
    (initialState support mx)).log = _
  rw [fold0_log]
  rfl

theorem initL0_lt_completed (support : List Nat) (mx : Nat)
    (hmax : ∀ i, i < support.length → support.getD i 0 ≤ mx) :
    ∀ x ∈ bucketGet (initialState support mx).buckets 0,
      x < (initialState support mx).completed.length := by
  intro x hx
  have := ((initialState_mem support mx hmax 0 x).mp hx).1
  show x < (List.replicate support.length false).length
  simpa using this

theorem initL0_lt_trussness (support : List Nat) (mx : Nat)
    (hmax : ∀ i, i < support.length → support.getD i 0 ≤ mx) :
    ∀ x ∈ bucketGet (initialState support mx).buckets 0,
      x < (initialState support mx).trussness.length := by
  intro x hx
  have := ((initialState_mem support mx hmax 0 x).mp hx).1
  show x < (List.replicate support.length (none : Option Nat)).length
  simpa using this

theorem initTruss_completed_getD (support : List Nat) (mx : Nat)
    (hmax : ∀ i, i < support.length → support.getD i 0 ≤ mx) (e : Nat) :
    (initTruss support mx).completed.getD e false =
      (if e < support.length ∧ support.getD e 0 = 0 then true else false) := by
  show ((bucketGet (initialState support mx).buckets 0).foldl completeEdge0
    (initialState support mx)).completed.getD e false = _
  rw [fold0_completed_getD _ _ (initL0_lt_completed support mx hmax) e]
  by_cases he : e ∈ bucketGet (initialState support mx).buckets 0
  · rw [if_pos he, if_pos ((initialState_mem support mx hmax 0 e).mp he)]
  · rw [if_neg he, initialState_completed_getD,
      if_neg (fun hh => he ((initialState_mem support mx hmax 0 e).mpr hh))]

theorem initTruss_trussness_getD (support : List Nat) (mx : Nat)
    (hmax : ∀ i, i < support.length → support.getD i 0 ≤ mx) (e : Nat) :
    (initTruss support mx).trussness.getD e none =
      (if e < support.length ∧ support.getD e 0 = 0 then some 2 else none) := by
  show ((bucketGet (initialState support mx).buckets 0).foldl completeEdge0
    (initialState support mx)).trussness.getD e none = _
  rw [fold0_trussness_getD _ _ (initL0_lt_trussness support mx hmax) e]
  by_cases he : e ∈ bucketGet (initialState support mx).buckets 0
  · rw [if_pos he, if_pos ((initialState_mem support mx hmax 0 e).mp he)]
  · rw [if_neg he, initialState_trussness_getD,
      if_neg (fun hh => he ((initialState_mem support mx hmax 0 e).mpr hh))]

/-- The initialization phase establishes the invariant at level 1. -/
theorem initTruss_inv {support : List Nat} {mx : Nat}
    (hmx : vectorMax support = some mx) :
    Inv support.length mx 1 (initTruss support mx) := by
  have hmax := vectorMax_getD hmx
  have hmem := initialState_mem support mx hmax
  have hC := initTruss_completed_getD support mx hmax
  have hT := initTruss_trussness_getD support mx hmax
  have hB := initTruss_buckets support mx
  have hS := initTruss_support support mx
  have hLg := initTruss_log support mx
  have hndL0 : (bucketGet (initialState support mx).buckets 0).Nodup := by
    rw [initialState_buckets]
    exact fillBuckets_nodup support mx support.length 0
  refine
    { supLen := by rw [hS]
      comLen := ?_
      truLen := ?_
      bucLen := ?_
      supMax := by rw [hS]; exact hmax
      mem_lt := ?_
      mem_sup := ?_
      mem_comp := ?_
      bnodup := ?_
      zeroMem := ?_
      supLevel := ?_
      trussSome := ?_
      trussVal := ?_
      logCount := ?_
      logVal := ?_
      cover := ?_ }
  · show ((bucketGet (initialState support mx).buckets 0).foldl completeEdge0
      (initialState support mx)).completed.length = support.length
    rw [fold0_completed_length]
    simp [initialState]
  · show ((bucketGet (initialState support mx).buckets 0).foldl completeEdge0
      (initialState support mx)).trussness.length = support.length
    rw [fold0_trussness_length]
    simp [initialState]
  · rw [hB, initialState_buckets, fillBuckets_length]
  · intro b e hm
    rw [hB] at hm
    exact ((hmem b e).mp hm).1
  · intro b e hm
    rw [hB] at hm
    rw [hS]
    exact ((hmem b e).mp hm).2
  · intro b e hm
    rw [hB] at hm
    obtain ⟨helt, hesup⟩ := (hmem b e).mp hm
    rw [hC e]
    by_cases hb0 : b = 0
    · subst hb0
      rw [if_pos ⟨helt, hesup⟩]
      simp
    · rw [if_neg (fun hh => hb0 (by omega))]
      constructor
      · intro hcontr
        simp at hcontr
      · intro hh
        exact absurd hh hb0
  · intro b
    rw [hB, initialState_buckets]
    exact fillBuckets_nodup support mx support.length b
  · intro e he h0
    rw [hS] at h0
    rw [hB]
    exact (hmem 0 e).mpr ⟨he, h0⟩
  · intro e he hc
    rw [hC e] at hc
    rw [hS]
    by_cases h0 : support.getD e 0 = 0
    · rw [if_pos ⟨he, h0⟩] at hc
      simp at hc
    · omega
  · intro e he
    rw [hC e, hT e]
    by_cases h0 : e < support.length ∧ support.getD e 0 = 0 <;> simp [h0]
  · intro e v he hv
    rw [hT e] at hv
    by_cases h0 : e < support.length ∧ support.getD e 0 = 0
    · rw [if_pos h0] at hv
      cases hv
      omega
    · rw [if_neg h0] at hv
      simp at hv
  · intro e he
    rw [hLg, countFst, hC e]
    by_cases he0 : e ∈ bucketGet (initialState support mx).buckets 0
    · rw [List.count_eq_one_of_mem hndL0 he0,
        if_pos ((hmem 0 e).mp he0)]
      simp
    · rw [List.count_eq_zero.mpr he0,
        if_neg (fun hh => he0 ((hmem 0 e).mpr hh))]
      simp
  · intro p hp
    rw [hLg] at hp
    obtain ⟨e, heL0, rfl⟩ := List.mem_map.mp hp
    show (initTruss support mx).trussness.getD e none = some (0 + 2)
    rw [hT e, if_pos ((hmem 0 e).mp heL0)]
  · intro e he hc
    rw [hB, hS]
    exact (hmem _ e).mpr ⟨he, rfl⟩

/-- The invariant at the end of the whole peeling run. -/
theorem trussPeelRun_inv (g : Graph) {support : List Nat} {mx : Nat}
    (hmx : vectorMax support = some mx) :
    Inv support.length mx (mx + 1) (trussPeelRun g support mx) := by
  have h := peelLevels_inv g mx 1 (initTruss support mx) (Nat.le_refl 1) (by omega)
    (initTruss_inv hmx)
  rw [show 1 + mx = mx + 1 by omega] at h
  exact h

/-- Every edge is completed when the run ends. -/
theorem trussPeelRun_completed (g : Graph) {support : List Nat} {mx : Nat}
    (hmx : vectorMax support = some mx) :
    ∀ e, e < support.length →
      (trussPeelRun g support mx).completed.getD e false = true := by
  intro e he
  have inv := trussPeelRun_inv g hmx
  cases hc : (trussPeelRun g support mx).completed.getD e false
  · have h1 := inv.supLevel e he hc
    have h2 := inv.supMax e he
    omega
  · rfl

/-- The invariant at the start of the processing of a level. -/
theorem stateAtLevel_inv (g : Graph) {support : List Nat} {mx : Nat}
    (hmx : vectorMax support = some mx) {L : Nat} (h1 : 1 ≤ L) (h2 : L ≤ mx + 1) :
    Inv support.length mx L (stateAtLevel g support mx L) := by
  have h := peelLevels_inv g (L - 1) 1 (initTruss support mx) (Nat.le_refl 1)
    (by omega) (initTruss_inv hmx)
  rw [show 1 + (L - 1) = L by omega] at h
  exact h

/-! ### Claim theorems -/

/-- C3: for every graph and every well-formed triangle list from the
triangle lister (triples of distinct vertices whose edges exist, each
triangle once), the support builder (unpack, edge-id resolution,
tally) yields an array of length E where entry e counts the triangles
containing edge e; each triangle contributes exactly one to each of
its three constituent edges. -/
theorem support_counts_triangles (g : Graph) (tris : List Nat) (h : TriWF g tris) :
    ∃ l, get_eids g (unpack tris) = some l ∧
      (compute_support l (List.replicate (ecount g) 0)).length = ecount g ∧
      ∀ e, e < ecount g →
        (compute_support l (List.replicate (ecount g) 0)).getD e 0 =
          triangleCount g tris e := by
  obtain ⟨l, hl, hcount⟩ := get_eids_unpack g tris h
  refine ⟨l, hl, ?_, ?_⟩
  · rw [compute_support_length]
    simp
  · intro e he
    rw [compute_support_getD _ _ _ (by simpa using he), replicate_getD_zero,
      Nat.zero_add, hcount]

/-- C3 witness: the single triangle on vertices 0, 1, 2. -/
theorem support_counts_triangles_witness :
    TriWF ⟨3, [(0, 1), (0, 2), (1, 2)]⟩ [0, 1, 2] ∧
    (∃ l, get_eids ⟨3, [(0, 1), (0, 2), (1, 2)]⟩ (unpack [0, 1, 2]) = some l ∧
      (compute_support l (List.replicate (ecount ⟨3, [(0, 1), (0, 2), (1, 2)]⟩) 0)).length =
        ecount ⟨3, [(0, 1), (0, 2), (1, 2)]⟩ ∧
      ∀ e, e < ecount ⟨3, [(0, 1), (0, 2), (1, 2)]⟩ →
        (compute_support l
            (List.replicate (ecount ⟨3, [(0, 1), (0, 2), (1, 2)]⟩) 0)).getD e 0 =
          triangleCount ⟨3, [(0, 1), (0, 2), (1, 2)]⟩ [0, 1, 2] e) :=
  ⟨⟨by decide, by decide, by decide, by decide, by decide, by decide, trivial⟩,
    support_counts_triangles _ _
      ⟨by decide, by decide, by decide, by decide, by decide, by decide, trivial⟩⟩

/-- C5: the adjacency structure consulted by the peeler gives, for
every vertex, an ascending, duplicate-free neighbor list without the
vertex itself, whose membership depends only on whether some stored
edge joins the two vertices (so traversal treats the graph as
simple).  Modelled from the spec, since igraph_adjlist_init and
igraph_adjlist_sort are not part of the given sources. -/
theorem sortedNeighbors_spec (g : Graph) (v : Nat) :
    (sortedNeighbors g v).Sorted (· < ·) ∧
    (sortedNeighbors g v).Nodup ∧
    v ∉ sortedNeighbors g v ∧
    (∀ u, u ∈ sortedNeighbors g v ↔
      (u < g.V ∧ u ≠ v ∧ ∃ p ∈ g.edges, edgeMatches p v u = true)) := by
  have hmemiff : ∀ u, u ∈ sortedNeighbors g v ↔
      (u < g.V ∧ u ≠ v ∧ ∃ p ∈ g.edges, edgeMatches p v u = true) := by
    intro u
    unfold sortedNeighbors adjacentB
    rw [List.mem_filter, List.mem_range]
    simp [List.any_eq_true, and_assoc]
  refine ⟨?_, ?_, ?_, hmemiff⟩
  · exact List.Pairwise.sublist (List.filter_sublist _) (List.pairwise_lt_range g.V)
  · exact (List.nodup_range g.V).filter _
  · intro hv
    exact (hmemiff v).mp hv |>.2.1 rfl

/-- C6: every edge whose initial support is 0 is marked completed with
trussness 2 by the initialization phase, before any peeling level
runs, and the final result still assigns it exactly 2. -/
theorem support_zero_trussness_two (g : Graph) (support : List Nat) (mx e : Nat)
    (hmx : vectorMax support = some mx) (he : e < support.length)
    (h0 : support.getD e 0 = 0) :
    (initTruss support mx).completed.getD e false = true ∧
    (initTruss support mx).trussness.getD e none = some 2 ∧
    (trussPeelRun g support mx).trussness.getD e none = some 2 ∧
    igraph_i_trussness g support = some ((trussPeelRun g support mx).trussness) := by
  have hmax := vectorMax_getD hmx
  have hc := initTruss_completed_getD support mx hmax e
  have ht := initTruss_trussness_getD support mx hmax e
  rw [if_pos ⟨he, h0⟩] at hc ht
  refine ⟨hc, ht, ?_, ?_⟩
  · have hlog : (e, 0) ∈ (initTruss support mx).log := by
      rw [initTruss_log]
      exact List.mem_map.mpr
        ⟨e, (initialState_mem support mx hmax 0 e).mpr ⟨he, h0⟩, rfl⟩
    have hfin : (e, 0) ∈ (trussPeelRun g support mx).log :=
      peelLevels_log_mono g support.length mx 1 (initTruss support mx) (e, 0) hlog
    have hval := (trussPeelRun_inv g hmx).logVal (e, 0) hfin
    simpa using hval
  · unfold igraph_i_trussness
    rw [if_neg (by omega), hmx]

/-- C6 witness: the path graph 0-1-2, both edges in no triangle. -/
theorem support_zero_trussness_two_witness :
    vectorMax [0, 0] = some 0 ∧ 0 < ([0, 0] : List Nat).length ∧
      ([0, 0] : List Nat).getD 0 0 = 0 ∧
    ((initTruss [0, 0] 0).completed.getD 0 false = true ∧
      (initTruss [0, 0] 0).trussness.getD 0 none = some 2 ∧
      (trussPeelRun ⟨3, [(0, 1), (1, 2)]⟩ [0, 0] 0).trussness.getD 0 none = some 2 ∧
      igraph_i_trussness ⟨3, [(0, 1), (1, 2)]⟩ [0, 0] =
        some ((trussPeelRun ⟨3, [(0, 1), (1, 2)]⟩ [0, 0] 0).trussness)) :=
  ⟨rfl, by decide, rfl,
    support_zero_trussness_two ⟨3, [(0, 1), (1, 2)]⟩ [0, 0] 0 0 rfl (by decide) rfl⟩

/-- C7: for a graph with at least one edge the computation succeeds
and every returned trussness entry lies between 2 and 2 plus the
maximum initial support. -/
theorem trussness_bounds (g : Graph) (support : List Nat) (mx : Nat)
    (hpos : 0 < support.length) (hmx : vectorMax support = some mx) :
    ∃ res, igraph_i_trussness g support = some res ∧
      res.length = support.length ∧
      ∀ e, e < support.length →
        ∃ v, res.getD e none = some v ∧ 2 ≤ v ∧ v ≤ mx + 2 := by
  have inv := trussPeelRun_inv g hmx
  refine ⟨(trussPeelRun g support mx).trussness, ?_, inv.truLen, ?_⟩
  · unfold igraph_i_trussness
    rw [if_neg (by omega), hmx]
  · intro e he
    have hcomp := trussPeelRun_completed g hmx e he
    have hsome := (inv.trussSome e he).mp hcomp
    obtain ⟨v, hv⟩ := Option.isSome_iff_exists.mp hsome
    exact ⟨v, hv, inv.trussVal e v he hv⟩

/-- C7 witness: the single triangle; max support 1; all entries 3. -/
theorem trussness_bounds_witness :
    0 < ([1, 1, 1] : List Nat).length ∧ vectorMax [1, 1, 1] = some 1 ∧
    (∃ res, igraph_i_trussness ⟨3, [(0, 1), (0, 2), (1, 2)]⟩ [1, 1, 1] = some res ∧
      res.length = ([1, 1, 1] : List Nat).length ∧
      ∀ e, e < ([1, 1, 1] : List Nat).length →
        ∃ v, res.getD e none = some v ∧ 2 ≤ v ∧ v ≤ 1 + 2) :=
  ⟨by decide, rfl,
    trussness_bounds ⟨3, [(0, 1), (0, 2), (1, 2)]⟩ [1, 1, 1] 1 (by decide) rfl⟩

/-- C9: a graph with zero edges is not an error: the pipeline returns
an empty trussness array at once through the early return, before the
maximum support (undefined on an empty vector), the buckets or the
adjacency structure would be touched. -/
theorem empty_graph_success (g : Graph) (h : ecount g = 0) :
    igraph_trussness g [] = some [] ∧ igraph_i_trussness g [] = some [] ∧
      vectorMax [] = none := by
  refine ⟨?_, rfl, rfl⟩
  have h1 : igraph_trussness g [] =
      igraph_i_trussness g (compute_support [] (List.replicate (ecount g) 0)) := rfl
  rw [h1, h]
  rfl

/-- C9 witness: a graph with three vertices and no edges. -/
theorem empty_graph_success_witness :
    ecount ⟨3, []⟩ = 0 ∧
    (igraph_trussness ⟨3, []⟩ [] = some [] ∧
      igraph_i_trussness ⟨3, []⟩ [] = some [] ∧ vectorMax [] = none) :=
  ⟨rfl, empty_graph_success ⟨3, []⟩ rfl⟩

/-- C2 counterexample: on the single-edge graph the only trussness
write (value 2, logged at level 0) happens to an edge that is never
removed from a bucket: at the end of the run it is completed, its
trussness is written, and it still sits in bucket 0. -/
theorem truss_write_in_bucket_cex :
    (trussPeelRun ⟨2, [(0, 1)]⟩ [0] 0).trussness.getD 0 none = some 2 ∧
    (trussPeelRun ⟨2, [(0, 1)]⟩ [0] 0).completed.getD 0 false = true ∧
    0 ∈ bucketGet (trussPeelRun ⟨2, [(0, 1)]⟩ [0] 0).buckets 0 ∧
    (trussPeelRun ⟨2, [(0, 1)]⟩ [0] 0).log = [(0, 0)] := by decide

/-- C2 (amended): during a run every edge is written exactly once
(the write log holds exactly one entry per edge); the written value is
2 plus the level at which the edge was finalized, and the final
trussness entry equals it; a support-0 edge is finalized at level 0
with value 2, during initialization and without leaving bucket 0,
while every other edge is written at the moment it is popped from its
bucket. -/
theorem truss_write_once (g : Graph) (support : List Nat) (mx : Nat)
    (hmx : vectorMax support = some mx) :
    (∀ e, e < support.length →
      ((trussPeelRun g support mx).log.filter (fun p => p.1 == e)).length = 1) ∧
    (∀ p, p ∈ (trussPeelRun g support mx).log →
      (trussPeelRun g support mx).trussness.getD p.1 none = some (p.2 + 2)) ∧
    (∀ p, p ∈ (trussPeelRun g support mx).log → p.1 < support.length →
      support.getD p.1 0 = 0 → p.2 = 0) := by
  have inv := trussPeelRun_inv g hmx
  refine ⟨?_, inv.logVal, ?_⟩
  · intro e he
    have h := inv.logCount e he
    rw [trussPeelRun_completed g hmx e he] at h
    simpa using h
  · intro p hp hplt hp0
    have h1 := inv.logVal p hp
    have hmax := vectorMax_getD hmx
    have hlog : (p.1, 0) ∈ (initTruss support mx).log := by
      rw [initTruss_log]
      exact List.mem_map.mpr
        ⟨p.1, (initialState_mem support mx hmax 0 p.1).mpr ⟨hplt, hp0⟩, rfl⟩
    have hfin : (p.1, 0) ∈ (trussPeelRun g support mx).log :=
      peelLevels_log_mono g support.length mx 1 (initTruss support mx) (p.1, 0) hlog
    have h2 := inv.logVal (p.1, 0) hfin
    rw [h1] at h2
    simp at h2
    omega

/-- C2 witness: the single triangle. -/
theorem truss_write_once_witness :
    vectorMax [1, 1, 1] = some 1 ∧
    ((∀ e, e < ([1, 1, 1] : List Nat).length →
      ((trussPeelRun ⟨3, [(0, 1), (0, 2), (1, 2)]⟩ [1, 1, 1] 1).log.filter
        (fun p => p.1 == e)).length = 1) ∧
    (∀ p, p ∈ (trussPeelRun ⟨3, [(0, 1), (0, 2), (1, 2)]⟩ [1, 1, 1] 1).log →
      (trussPeelRun ⟨3, [(0, 1), (0, 2), (1, 2)]⟩ [1, 1, 1] 1).trussness.getD
        p.1 none = some (p.2 + 2)) ∧
    (∀ p, p ∈ (trussPeelRun ⟨3, [(0, 1), (0, 2), (1, 2)]⟩ [1, 1, 1] 1).log →
      p.1 < ([1, 1, 1] : List Nat).length →
      ([1, 1, 1] : List Nat).getD p.1 0 = 0 → p.2 = 0)) :=
  ⟨rfl, truss_write_once ⟨3, [(0, 1), (0, 2), (1, 2)]⟩ [1, 1, 1] 1 rfl⟩

/-- C4 counterexample: on the path graph both edges are completed by
the initialization and remain members of bucket 0 for the whole run,
so a completed edge is not removed from all buckets. -/
theorem truss_completed_bucket_cex :
    (trussPeelRun ⟨3, [(0, 1), (1, 2)]⟩ [0, 0] 0).completed.getD 0 false = true ∧
    0 ∈ bucketGet (trussPeelRun ⟨3, [(0, 1), (1, 2)]⟩ [0, 0] 0).buckets 0 ∧
    1 ∈ bucketGet (trussPeelRun ⟨3, [(0, 1), (1, 2)]⟩ [0, 0] 0).buckets 0 := by
  decide

/-- C4 (amended): at every observation point of the run (any number
of seed iterations into any level), every uncompleted edge lies in
the bucket of its current support and in no other bucket, buckets are
duplicate-free, a completed edge can appear only in bucket 0 and only
with support 0 (the support-0 edges finalized at initialization stay
in bucket 0 and are never reinserted elsewhere), and every support-0
edge is in bucket 0. -/
theorem truss_bucket_invariant (g : Graph) (support : List Nat) (mx L k : Nat)
    (hmx : vectorMax support = some mx) (h1 : 1 ≤ L) (h2 : L ≤ mx) :
    (∀ e, e < support.length →
      (whileN g L k (stateAtLevel g support mx L)).completed.getD e false = false →
      e ∈ bucketGet (whileN g L k (stateAtLevel g support mx L)).buckets
        ((whileN g L k (stateAtLevel g support mx L)).support.getD e 0)) ∧
    (∀ b e, e ∈ bucketGet (whileN g L k (stateAtLevel g support mx L)).buckets b →
      b = (whileN g L k (stateAtLevel g support mx L)).support.getD e 0) ∧
    (∀ b, (bucketGet (whileN g L k (stateAtLevel g support mx L)).buckets b).Nodup) ∧
    (∀ b e,
      (whileN g L k (stateAtLevel g support mx L)).completed.getD e false = true →
      e ∈ bucketGet (whileN g L k (stateAtLevel g support mx L)).buckets b →
      b = 0 ∧ (whileN g L k (stateAtLevel g support mx L)).support.getD e 0 = 0) ∧
    (∀ e, e < support.length →
      (whileN g L k (stateAtLevel g support mx L)).support.getD e 0 = 0 →
      e ∈ bucketGet (whileN g L k (stateAtLevel g support mx L)).buckets 0) := by
  have inv := whileN_inv_partial g h1 h2 k _ (stateAtLevel_inv g hmx h1 (by omega))
  refine ⟨fun e he hc => inv.cover e he hc,
    fun b e hm => (inv.mem_sup b e hm).symm, inv.bnodup, ?_,
    fun e he h0 => inv.zeroMem e he h0⟩
  intro b e hcomp hm
  have hb0 := (inv.mem_comp b e hm).mp hcomp
  have hsup := inv.mem_sup b e hm
  subst hb0
  exact ⟨rfl, hsup⟩

/-- C4 witness: the triangle graph at level 1 after one iteration. -/
theorem truss_bucket_invariant_witness :
    vectorMax [1, 1, 1] = some 1 ∧ 1 ≤ 1 ∧ 1 ≤ 1 ∧
    ((∀ e, e < ([1, 1, 1] : List Nat).length →
      (whileN ⟨3, [(0, 1), (0, 2), (1, 2)]⟩ 1 1
        (stateAtLevel ⟨3, [(0, 1), (0, 2), (1, 2)]⟩ [1, 1, 1] 1 1)).completed.getD
          e false = false →
      e ∈ bucketGet (whileN ⟨3, [(0, 1), (0, 2), (1, 2)]⟩ 1 1
        (stateAtLevel ⟨3, [(0, 1), (0, 2), (1, 2)]⟩ [1, 1, 1] 1 1)).buckets
        ((whileN ⟨3, [(0, 1), (0, 2), (1, 2)]⟩ 1 1
          (stateAtLevel ⟨3, [(0, 1), (0, 2), (1, 2)]⟩ [1, 1, 1] 1 1)).support.getD
            e 0)) ∧
    (∀ b e, e ∈ bucketGet (whileN ⟨3, [(0, 1), (0, 2), (1, 2)]⟩ 1 1
        (stateAtLevel ⟨3, [(0, 1), (0, 2), (1, 2)]⟩ [1, 1, 1] 1 1)).buckets b →
      b = (whileN ⟨3, [(0, 1), (0, 2), (1, 2)]⟩ 1 1
        (stateAtLevel ⟨3, [(0, 1), (0, 2), (1, 2)]⟩ [1, 1, 1] 1 1)).support.getD e 0) ∧
    (∀ b, (bucketGet (whileN ⟨3, [(0, 1), (0, 2), (1, 2)]⟩ 1 1
      (stateAtLevel ⟨3, [(0, 1), (0, 2), (1, 2)]⟩ [1, 1, 1] 1 1)).buckets b).Nodup) ∧
    (∀ b e, (whileN ⟨3, [(0, 1), (0, 2), (1, 2)]⟩ 1 1
        (stateAtLevel ⟨3, [(0, 1), (0, 2), (1, 2)]⟩ [1, 1, 1] 1 1)).completed.getD
          e false = true →
      e ∈ bucketGet (whileN ⟨3, [(0, 1), (0, 2), (1, 2)]⟩ 1 1
        (stateAtLevel ⟨3, [(0, 1), (0, 2), (1, 2)]⟩ [1, 1, 1] 1 1)).buckets b →
      b = 0 ∧ (whileN ⟨3, [(0, 1), (0, 2), (1, 2)]⟩ 1 1
        (stateAtLevel ⟨3, [(0, 1), (0, 2), (1, 2)]⟩ [1, 1, 1] 1 1)).support.getD
          e 0 = 0) ∧
    (∀ e, e < ([1, 1, 1] : List Nat).length →
      (whileN ⟨3, [(0, 1), (0, 2), (1, 2)]⟩ 1 1
        (stateAtLevel ⟨3, [(0, 1), (0, 2), (1, 2)]⟩ [1, 1, 1] 1 1)).support.getD
          e 0 = 0 →
      e ∈ bucketGet (whileN ⟨3, [(0, 1), (0, 2), (1, 2)]⟩ 1 1
        (stateAtLevel ⟨3, [(0, 1), (0, 2), (1, 2)]⟩ [1, 1, 1] 1 1)).buckets 0)) :=
  ⟨rfl, Nat.le_refl 1, Nat.le_refl 1,
    truss_bucket_invariant ⟨3, [(0, 1), (0, 2), (1, 2)]⟩ [1, 1, 1] 1 1 1 rfl
      (Nat.le_refl 1) (Nat.le_refl 1)⟩

/-- C10: at every observation point while level L is being processed,
every uncompleted edge has support at least L; every bucket below L
holds only completed edges (bucket 0 residue) or is empty; and a
demotion at level L of an edge with support above L lowers the
support by exactly one, to a value still at least L. -/
theorem level_invariant (g : Graph) (support : List Nat) (mx L k : Nat)
    (hmx : vectorMax support = some mx) (h1 : 1 ≤ L) (h2 : L ≤ mx) :
    (∀ e, e < support.length →
      (whileN g L k (stateAtLevel g support mx L)).completed.getD e false = false →
      L ≤ (whileN g L k (stateAtLevel g support mx L)).support.getD e 0) ∧
    (∀ b, b < L → ∀ e,
      e ∈ bucketGet (whileN g L k (stateAtLevel g support mx L)).buckets b →
      (whileN g L k (stateAtLevel g support mx L)).completed.getD e false = true) ∧
    (∀ e, L < (whileN g L k (stateAtLevel g support mx L)).support.getD e 0 →
      (demote L e (whileN g L k (stateAtLevel g support mx L))).support.getD e 0 =
        (whileN g L k (stateAtLevel g support mx L)).support.getD e 0 - 1 ∧
      L ≤ (demote L e (whileN g L k (stateAtLevel g support mx L))).support.getD e 0) := by
  have inv := whileN_inv_partial g h1 h2 k _ (stateAtLevel_inv g hmx h1 (by omega))
  refine ⟨fun e he hc => inv.supLevel e he hc, ?_, ?_⟩
  · intro b hb e hm
    cases hc : (whileN g L k (stateAtLevel g support mx L)).completed.getD e false
    · have helt := inv.mem_lt b e hm
      have hsup := inv.mem_sup b e hm
      have := inv.supLevel e helt hc
      omega
    · rfl
  · intro e hgt
    rw [demote_support_self hgt]
    omega

/-- C10 witness: the triangle graph at level 1 after one iteration. -/
theorem level_invariant_witness :
    vectorMax [1, 1, 1] = some 1 ∧ 1 ≤ 1 ∧ 1 ≤ 1 ∧
    ((∀ e, e < ([1, 1, 1] : List Nat).length →
      (whileN ⟨3, [(0, 1), (0, 2), (1, 2)]⟩ 1 1
        (stateAtLevel ⟨3, [(0, 1), (0, 2), (1, 2)]⟩ [1, 1, 1] 1 1)).completed.getD
          e false = false →
      1 ≤ (whileN ⟨3, [(0, 1), (0, 2), (1, 2)]⟩ 1 1
        (stateAtLevel ⟨3, [(0, 1), (0, 2), (1, 2)]⟩ [1, 1, 1] 1 1)).support.getD e 0) ∧
    (∀ b, b < 1 → ∀ e,
      e ∈ bucketGet (whileN ⟨3, [(0, 1), (0, 2), (1, 2)]⟩ 1 1
        (stateAtLevel ⟨3, [(0, 1), (0, 2), (1, 2)]⟩ [1, 1, 1] 1 1)).buckets b →
      (whileN ⟨3, [(0, 1), (0, 2), (1, 2)]⟩ 1 1
        (stateAtLevel ⟨3, [(0, 1), (0, 2), (1, 2)]⟩ [1, 1, 1] 1 1)).completed.getD
          e false = true) ∧
    (∀ e, 1 < (whileN ⟨3, [(0, 1), (0, 2), (1, 2)]⟩ 1 1
        (stateAtLevel ⟨3, [(0, 1), (0, 2), (1, 2)]⟩ [1, 1, 1] 1 1)).support.getD e 0 →
      (demote 1 e (whileN ⟨3, [(0, 1), (0, 2), (1, 2)]⟩ 1 1
        (stateAtLevel ⟨3, [(0, 1), (0, 2), (1, 2)]⟩ [1, 1, 1] 1 1))).support.getD e 0 =
        (whileN ⟨3, [(0, 1), (0, 2), (1, 2)]⟩ 1 1
          (stateAtLevel ⟨3, [(0, 1), (0, 2), (1, 2)]⟩ [1, 1, 1] 1 1)).support.getD
            e 0 - 1 ∧
      1 ≤ (demote 1 e (whileN ⟨3, [(0, 1), (0, 2), (1, 2)]⟩ 1 1
        (stateAtLevel ⟨3, [(0, 1), (0, 2), (1, 2)]⟩ [1, 1, 1] 1 1))).support.getD e 0)) :=
  ⟨rfl, Nat.le_refl 1, Nat.le_refl 1,
    level_invariant ⟨3, [(0, 1), (0, 2), (1, 2)]⟩ [1, 1, 1] 1 1 1 rfl
      (Nat.le_refl 1) (Nat.le_refl 1)⟩

theorem bucketGet_nodup_of_all {bs : List (List Nat)} (h : ∀ l ∈ bs, l.Nodup) :
    ∀ b, (bucketGet bs b).Nodup := by
  intro b
  by_cases hb : b < bs.length
  · apply h
    unfold bucketGet
    rw [List.getD_eq_getElem?_getD, List.getElem?_eq_getElem hb]
    exact List.getElem_mem hb
  · unfold bucketGet
    rw [List.getD_eq_default _ _ (by omega)]
    exact List.nodup_nil

/-- C1: when the seed popped at a level closes a triangle with edges
e1 and e2 through common neighbor n, demotion happens only when both
are uncompleted; then each of e1, e2 with support strictly above the
level has its support decremented by exactly one and moves from the
bucket of its old support to the bucket of its new support, an edge
with support at most the level is left untouched, and if either edge
is completed nothing changes for this triangle. -/
theorem truss_triangle_demotion (g : Graph) (level fromV toV n e1 e2 : Nat)
    (st : PeelState)
    (h1 : get_eid g fromV n = some e1) (h2 : get_eid g toV n = some e2)
    (hne : e1 ≠ e2)
    (hnd : ∀ b, (bucketGet st.buckets b).Nodup)
    (hcov1 : st.completed.getD e1 false = false →
      e1 ∈ bucketGet st.buckets (st.support.getD e1 0))
    (hcov2 : st.completed.getD e2 false = false →
      e2 ∈ bucketGet st.buckets (st.support.getD e2 0))
    (hlen1 : st.support.getD e1 0 < st.buckets.length)
    (hlen2 : st.support.getD e2 0 < st.buckets.length) :
    ((st.completed.getD e1 false = true ∨ st.completed.getD e2 false = true) →
      handleCommon g level fromV toV st n = st) ∧
    (st.completed.getD e1 false = false → st.completed.getD e2 false = false →
      (level < st.support.getD e1 0 →
        (handleCommon g level fromV toV st n).support.getD e1 0 =
          st.support.getD e1 0 - 1 ∧
        e1 ∈ bucketGet (handleCommon g level fromV toV st n).buckets
          (st.support.getD e1 0 - 1) ∧
        e1 ∉ bucketGet (handleCommon g level fromV toV st n).buckets
          (st.support.getD e1 0)) ∧
      (st.support.getD e1 0 ≤ level →
        (handleCommon g level fromV toV st n).support.getD e1 0 =
          st.support.getD e1 0 ∧
        ∀ b, (e1 ∈ bucketGet (handleCommon g level fromV toV st n).buckets b ↔
          e1 ∈ bucketGet st.buckets b)) ∧
      (level < st.support.getD e2 0 →
        (handleCommon g level fromV toV st n).support.getD e2 0 =
          st.support.getD e2 0 - 1 ∧
        e2 ∈ bucketGet (handleCommon g level fromV toV st n).buckets
          (st.support.getD e2 0 - 1) ∧
        e2 ∉ bucketGet (handleCommon g level fromV toV st n).buckets
          (st.support.getD e2 0)) ∧
      (st.support.getD e2 0 ≤ level →
        (handleCommon g level fromV toV st n).support.getD e2 0 =
          st.support.getD e2 0 ∧
        ∀ b, (e2 ∈ bucketGet (handleCommon g level fromV toV st n).buckets b ↔
          e2 ∈ bucketGet st.buckets b))) := by
  have hred : handleCommon g level fromV toV st n =
      (if (st.completed.getD e1 false || st.completed.getD e2 false) = true
        then st else demote level e2 (demote level e1 st)) := by
    unfold handleCommon
    rw [h1, h2]
  constructor
  · intro hor
    rw [hred, if_pos (by rw [Bool.or_eq_true]; exact hor)]
  · intro hc1 hc2
    have hcond : ¬ (st.completed.getD e1 false || st.completed.getD e2 false) = true := by
      rw [Bool.or_eq_true]
      rintro (h | h)
      · rw [hc1] at h
        exact Bool.false_ne_true h
      · rw [hc2] at h
        exact Bool.false_ne_true h
    rw [hred, if_neg hcond]
    have hsup2 : (demote level e1 st).support.getD e2 0 = st.support.getD e2 0 :=
      demote_support_ne (Ne.symm hne)
    refine ⟨?_, ?_, ?_, ?_⟩
    · intro hgt
      have hs1 : (demote level e1 st).support.getD e1 0 = st.support.getD e1 0 - 1 :=
        demote_support_self hgt
      have hm1 : e1 ∈ bucketGet (demote level e1 st).buckets
          (st.support.getD e1 0 - 1) :=
        demote_mem_new hgt (by omega)
      have hn1 : e1 ∉ bucketGet (demote level e1 st).buckets (st.support.getD e1 0) :=
        demote_not_mem_old hgt hnd hlen1
      refine ⟨?_, ?_, ?_⟩
      · rw [demote_support_ne hne]
        exact hs1
      · exact (demote_mem_ne hne).mpr hm1
      · intro hmem
        exact hn1 ((demote_mem_ne hne).mp hmem)
    · intro hle
      have hnoop : demote level e1 st = st := demote_noop (by omega)
      refine ⟨?_, ?_⟩
      · rw [demote_support_ne hne, hnoop]
      · intro b
        rw [demote_mem_ne hne, hnoop]
    · intro hgt
      have hgt1 : level < (demote level e1 st).support.getD e2 0 := by
        rw [hsup2]
        exact hgt
      have hnd1 : ∀ b, (bucketGet (demote level e1 st).buckets b).Nodup :=
        demote_bnodup hnd
      have hlen2a : (demote level e1 st).support.getD e2 0 <
          (demote level e1 st).buckets.length := by
        rw [hsup2, demote_buckets_length]
        exact hlen2
      have hs2 := demote_support_self hgt1
      have hm2 := demote_mem_new hgt1 (by rw [hsup2, demote_buckets_length]; omega)
      have hn2 := demote_not_mem_old hgt1 hnd1 hlen2a
      rw [hsup2] at hs2 hm2 hn2
      exact ⟨hs2, hm2, hn2⟩
    · intro hle
      have hnoop : demote level e2 (demote level e1 st) = demote level e1 st :=
        demote_noop (by rw [hsup2]; omega)
      refine ⟨?_, ?_⟩
      · rw [hnoop, hsup2]
      · intro b
        rw [hnoop, demote_mem_ne (Ne.symm hne)]

/-- Concrete graph for the C1 witness: edges (0,2) and (1,2). -/
def w1Graph : Graph := ⟨3, [(0, 2), (1, 2)]⟩

/-- Concrete peel state for the C1 witness: edge 0 has support 2 (in
bucket 2), edge 1 has support 1 (in bucket 1), neither completed. -/
def w1State : PeelState :=
  ⟨[2, 1], [false, false], [none, none], [[], [1], [0]], []⟩

/-- C1 witness: at level 1 the common neighbor 2 of vertices 0 and 1
closes a triangle whose edges are 0 and 1; edge 0 (support 2) is
demoted into bucket 1, edge 1 (support 1) is untouched. -/
theorem truss_triangle_demotion_witness :
    (get_eid w1Graph 0 2 = some 0) ∧ (get_eid w1Graph 1 2 = some 1) ∧
    ((0 : Nat) ≠ 1) ∧
    (∀ b, (bucketGet w1State.buckets b).Nodup) ∧
    (w1State.completed.getD 0 false = false →
      0 ∈ bucketGet w1State.buckets (w1State.support.getD 0 0)) ∧
    (w1State.completed.getD 1 false = false →
      1 ∈ bucketGet w1State.buckets (w1State.support.getD 1 0)) ∧
    (w1State.support.getD 0 0 < w1State.buckets.length) ∧
    (w1State.support.getD 1 0 < w1State.buckets.length) ∧
    (((w1State.completed.getD 0 false = true ∨
        w1State.completed.getD 1 false = true) →
      handleCommon w1Graph 1 0 1 w1State 2 = w1State) ∧
    (w1State.completed.getD 0 false = false →
      w1State.completed.getD 1 false = false →
      (1 < w1State.support.getD 0 0 →
        (handleCommon w1Graph 1 0 1 w1State 2).support.getD 0 0 =
          w1State.support.getD 0 0 - 1 ∧
        0 ∈ bucketGet (handleCommon w1Graph 1 0 1 w1State 2).buckets
          (w1State.support.getD 0 0 - 1) ∧
        0 ∉ bucketGet (handleCommon w1Graph 1 0 1 w1State 2).buckets
          (w1State.support.getD 0 0)) ∧
      (w1State.support.getD 0 0 ≤ 1 →
        (handleCommon w1Graph 1 0 1 w1State 2).support.getD 0 0 =
          w1State.support.getD 0 0 ∧
        ∀ b, (0 ∈ bucketGet (handleCommon w1Graph 1 0 1 w1State 2).buckets b ↔
          0 ∈ bucketGet w1State.buckets b)) ∧
      (1 < w1State.support.getD 1 0 →
        (handleCommon w1Graph 1 0 1 w1State 2).support.getD 1 0 =
          w1State.support.getD 1 0 - 1 ∧
        1 ∈ bucketGet (handleCommon w1Graph 1 0 1 w1State 2).buckets
          (w1State.support.getD 1 0 - 1) ∧
        1 ∉ bucketGet (handleCommon w1Graph 1 0 1 w1State 2).buckets
          (w1State.support.getD 1 0)) ∧
      (w1State.support.getD 1 0 ≤ 1 →
        (handleCommon w1Graph 1 0 1 w1State 2).support.getD 1 0 =
          w1State.support.getD 1 0 ∧
        ∀ b, (1 ∈ bucketGet (handleCommon w1Graph 1 0 1 w1State 2).buckets b ↔
          1 ∈ bucketGet w1State.buckets b)))) :=
  ⟨rfl, rfl, by decide, bucketGet_nodup_of_all (by decide), by decide, by decide,
    by decide, by decide,
    truss_triangle_demotion w1Graph 1 0 1 2 0 1 w1State rfl rfl (by decide)
      (bucketGet_nodup_of_all (by decide)) (by decide) (by decide)
      (by decide) (by decide)⟩

/-! ### Simple graphs and edge-id resolution

Material for the tie-break invariance analysis: on a simple graph
(no self-loops, no parallel edges, endpoints in range) edge ids and
unordered endpoint pairs determine each other. -/

/-- The stored graph is a simple graph: endpoints in range and
distinct, and no two stored edges join the same unordered pair. -/
def Simple (g : Graph) : Prop :=
  (∀ p ∈ g.edges, p.1 < g.V ∧ p.2 < g.V ∧ p.1 ≠ p.2) ∧
  (∀ i j p q, g.edges.get? i = some p → g.edges.get? j = some q →
    edgeMatches p q.1 q.2 = true → i = j)

theorem edgeMatches_iff {p : Nat × Nat} {a b : Nat} :
    edgeMatches p a b = true ↔ ((p.1 = a ∧ p.2 = b) ∨ (p.1 = b ∧ p.2 = a)) := by
  unfold edgeMatches
  simp

theorem edgeMatches_comm (p : Nat × Nat) (a b : Nat) :
    edgeMatches p a b = edgeMatches p b a := by
  unfold edgeMatches
  cases hp1 : p.1 == a <;> cases hp2 : p.2 == b <;> cases hp3 : p.1 == b <;>
    cases hp4 : p.2 == a <;> simp [hp1, hp2, hp3, hp4]

theorem edgeMatches_self (p : Nat × Nat) : edgeMatches p p.1 p.2 = true := by
  unfold edgeMatches
  simp

theorem findEid_comm (l : List (Nat × Nat)) (a b : Nat) :
    findEid l a b = findEid l b a := by
  induction l with
  | nil => rfl
  | cons p rest ih =>
    unfold findEid
    rw [edgeMatches_comm, ih]

theorem get_eid_comm (g : Graph) (a b : Nat) : get_eid g a b = get_eid g b a :=
  findEid_comm g.edges a b

theorem findEid_isSome_of_mem {l : List (Nat × Nat)} {p : Nat × Nat} {a b : Nat}
    (hm : p ∈ l) (hmat : edgeMatches p a b = true) : (findEid l a b).isSome = true := by
  induction l with
  | nil => simp at hm
  | cons q rest ih =>
    unfold findEid
    by_cases hq : edgeMatches q a b
    · simp [hq]
    · rcases List.mem_cons.mp hm with rfl | hm2
      · exact absurd hmat hq
      · simp only [hq, if_false]
        have := ih hm2
        cases hfe : findEid rest a b with
        | none => rw [hfe] at this; simp at this
        | some j => simp [hfe]

theorem get_eid_isSome_of_adj {g : Graph} {a b : Nat}
    (h : ∃ p ∈ g.edges, edgeMatches p a b = true) : (get_eid g a b).isSome = true := by
  obtain ⟨p, hp, hmat⟩ := h
  exact findEid_isSome_of_mem hp hmat

/-- On a simple graph, an edge id is determined by any matching
unordered pair. -/
theorem get_eid_unique {g : Graph} (hs : Simple g) {i : Nat} {p : Nat × Nat}
    {a b : Nat} (hget : g.edges.get? i = some p) (hmat : edgeMatches p a b = true) :
    get_eid g a b = some i := by
  have hpm : p ∈ g.edges := by
    have := List.get?_eq_some.mp hget
    obtain ⟨hlt, hval⟩ := this
    rw [← hval]
    exact List.get_mem _ _ _
  cases hj : get_eid g a b with
  | none =>
    have := get_eid_isSome_of_adj ⟨p, hpm, hmat⟩
    rw [hj] at this
    simp at this
  | some j =>
    obtain ⟨q, hq, hqmat⟩ := get_eid_matches hj
    have hqp : edgeMatches q p.1 p.2 = true := by
      rcases edgeMatches_iff.mp hmat with ⟨h1, h2⟩ | ⟨h1, h2⟩
      · rw [← h1, ← h2] at hqmat
        exact hqmat
      · rw [← h1, ← h2] at hqmat
        rw [edgeMatches_comm] at hqmat
        exact hqmat
    have := hs.2 j i q p hq hget hqp
    rw [this]

/-- On a simple graph the resolution of an edge's own endpoints is the
edge itself. -/
theorem eid_ends {g : Graph} (hs : Simple g) {e : Nat} (he : e < ecount g) :
    get_eid g (edgeEnds g e).1 (edgeEnds g e).2 = some e := by
  have hget : g.edges.get? e = some (g.edges.get ⟨e, he⟩) := List.get?_eq_get he
  have hends : edgeEnds g e = g.edges.get ⟨e, he⟩ := by
    unfold edgeEnds
    rw [List.getD_eq_getElem?_getD, List.getElem?_eq_getElem he]
    rfl
  rw [hends]
  exact get_eid_unique hs hget (edgeMatches_self _)

theorem get_eid_ends {g : Graph} {a b i : Nat} (h : get_eid g a b = some i) :
    edgeEnds g i = (a, b) ∨ edgeEnds g i = (b, a) := by
  obtain ⟨p, hp, hmat⟩ := get_eid_matches h
  have hends : edgeEnds g i = p := by
    unfold edgeEnds
    have := List.get?_eq_some.mp hp
    obtain ⟨hlt, hval⟩ := this
    rw [List.getD_eq_getElem?_getD, List.getElem?_eq_getElem hlt]
    simpa using hval
  rcases edgeMatches_iff.mp hmat with ⟨h1, h2⟩ | ⟨h1, h2⟩
  · left
    rw [hends]
    ext <;> simp [h1, h2]
  · right
    rw [hends]
    ext <;> simp [h1, h2]

/-- Endpoints of a stored edge of a simple graph, as a membership. -/
theorem ends_mem {g : Graph} {e : Nat} (he : e < ecount g) :
    edgeEnds g e ∈ g.edges := by
  unfold edgeEnds
  rw [List.getD_eq_getElem?_getD, List.getElem?_eq_getElem he]
  exact List.getElem_mem he

theorem simple_ends_ne {g : Graph} (hs : Simple g) {e : Nat} (he : e < ecount g) :
    (edgeEnds g e).1 ≠ (edgeEnds g e).2 :=
  (hs.1 _ (ends_mem he)).2.2

theorem simple_ends_lt {g : Graph} (hs : Simple g) {e : Nat} (he : e < ecount g) :
    (edgeEnds g e).1 < g.V ∧ (edgeEnds g e).2 < g.V :=
  ⟨(hs.1 _ (ends_mem he)).1, (hs.1 _ (ends_mem he)).2.1⟩

/-! ### The peeling run with an arbitrary tie-break

The code pops the first element of the unordered set of the current
bucket; which element is first is an implementation accident.  The
run is reformulated with an explicit choice function over the bucket
contents; the code corresponds to the head choice. -/

/-- A tie-break policy is valid when it picks a member of any
nonempty bucket. -/
def ValidPick (pick : List Nat → Nat) : Prop := ∀ l, l ≠ [] → pick l ∈ l

def whileP (g : Graph) (pick : List Nat → Nat) (level : Nat) :
    Nat → PeelState → PeelState
  | 0, st => st
  | Nat.succ fuel, st =>
    match bucketGet st.buckets level with
    | [] => st
    | seed :: rest =>
      whileP g pick level fuel (seedStep g level (pick (seed :: rest)) st)

def peelP (g : Graph) (pick : List Nat → Nat) (fuel : Nat) :
    Nat → Nat → PeelState → PeelState
  | 0, _, st => st
  | Nat.succ k, level, st =>
    peelP g pick fuel k (level + 1) (whileP g pick level fuel st)

def runP (g : Graph) (pick : List Nat → Nat) (support : List Nat) (mx : Nat) :
    PeelState :=
  peelP g pick support.length mx 1 (initTruss support mx)

theorem headD_mem : ∀ (l : List Nat), l ≠ [] → l.headD 0 ∈ l
  | [], h => absurd rfl h
  | x :: xs, _ => List.mem_cons_self x xs

theorem whileN_eq_whileP (g : Graph) (level : Nat) :
    ∀ (fuel : Nat) (st : PeelState),
      whileN g level fuel st = whileP g (fun l => l.headD 0) level fuel st := by
  intro fuel
  induction fuel with
  | zero =>
    intro st
    rfl
  | succ fuel ih =>
    intro st
    show whileN g level (fuel + 1) st = _
    cases hb : bucketGet st.buckets level with
    | nil =>
      rw [whileN_succ_nil g level fuel st hb]
      unfold whileP
      rw [hb]
    | cons seed rest =>
      rw [whileN_succ_cons g level fuel st hb]
      conv_rhs => unfold whileP
      rw [hb]
      exact ih _

theorem trussPeelRun_eq_runP (g : Graph) (support : List Nat) (mx : Nat) :
    trussPeelRun g support mx = runP g (fun l => l.headD 0) support mx := by
  unfold trussPeelRun runP
  have hk : ∀ (k level : Nat) (st : PeelState),
      peelLevels g support.length k level st =
        peelP g (fun l => l.headD 0) support.length k level st := by
    intro k
    induction k with
    | zero =>
      intro level st
      rfl
    | succ k ih =>
      intro level st
      rw [peelLevels_succ]
      show _ = peelP g (fun l => l.headD 0) support.length k (level + 1)
        (whileP g (fun l => l.headD 0) level support.length st)
      rw [← whileN_eq_whileP]
      exact ih _ _
  exact hk mx 1 _

theorem whileP_zero (g : Graph) (pick : List Nat → Nat) (level : Nat)
    (st : PeelState) : whileP g pick level 0 st = st := rfl

theorem whileP_succ_nil (g : Graph) (pick : List Nat → Nat) (level fuel : Nat)
    (st : PeelState) (hb : bucketGet st.buckets level = []) :
    whileP g pick level (fuel + 1) st = st := by
  unfold whileP
  rw [hb]

theorem whileP_succ_cons (g : Graph) (pick : List Nat → Nat) (level fuel : Nat)
    (st : PeelState) {seed : Nat} {rest : List Nat}
    (hb : bucketGet st.buckets level = seed :: rest) :
    whileP g pick level (fuel + 1) st =
      whileP g pick level fuel (seedStep g level (pick (seed :: rest)) st) := by
  conv_lhs => unfold whileP
  rw [hb]

theorem whileP_inv (g : Graph) {pick : List Nat → Nat} (hv : ValidPick pick)
    {E mx level : Nat} (hlev : 1 ≤ level) (hle : level ≤ mx) :
    ∀ (fuel : Nat) (st : PeelState), Inv E mx level st → uncompleted st ≤ fuel →
      Inv E mx level (whileP g pick level fuel st) ∧
        bucketGet (whileP g pick level fuel st).buckets level = [] := by
  intro fuel
  induction fuel with
  | zero =>
    intro st inv hf
    rw [whileP_zero]
    refine ⟨inv, ?_⟩
    cases hb : bucketGet st.buckets level with
    | nil => rfl
    | cons seed rest =>
      have hmem : seed ∈ bucketGet st.buckets level := by
        rw [hb]
        exact List.mem_cons_self _ _
      have hunc := bucket_unc hlev inv hlev hmem
      have hlt : seed < st.completed.length := by
        rw [inv.comLen]
        exact inv.mem_lt level seed hmem
      have hpos := count_false_pos st.completed seed hlt hunc
      unfold uncompleted at hf
      omega
  | succ fuel ih =>
    intro st inv hf
    cases hb : bucketGet st.buckets level with
    | nil =>
      rw [whileP_succ_nil g pick level fuel st hb]
      exact ⟨inv, hb⟩
    | cons seed rest =>
      rw [whileP_succ_cons g pick level fuel st hb]
      have hmem : pick (seed :: rest) ∈ bucketGet st.buckets level := by
        rw [hb]
        exact hv _ (by simp)
      have hstep := seedStep_inv g hlev hle inv hmem
      have hcnt := seedStep_uncompleted g hlev inv hmem
      exact ih _ hstep (by omega)

theorem peelP_zero (g : Graph) (pick : List Nat → Nat) (fuel level : Nat)
    (st : PeelState) : peelP g pick fuel 0 level st = st := rfl

theorem peelP_succ (g : Graph) (pick : List Nat → Nat) (fuel k level : Nat)
    (st : PeelState) :
    peelP g pick fuel (k + 1) level st =
      peelP g pick fuel k (level + 1) (whileP g pick level fuel st) := rfl

theorem peelP_inv (g : Graph) {pick : List Nat → Nat} (hv : ValidPick pick)
    {E mx : Nat} :
    ∀ (k level : Nat) (st : PeelState), 1 ≤ level → level + k ≤ mx + 1 →
      Inv E mx level st → Inv E mx (level + k) (peelP g pick E k level st) := by
  intro k
  induction k with
  | zero =>
    intro level st _ _ inv
    exact inv
  | succ k ih =>
    intro level st h1 h2 inv
    rw [peelP_succ]
    have hw := whileP_inv g hv h1 (by omega) E st inv (uncompleted_le st inv.comLen)
    have hadv := inv_advance hw.1 hw.2
    have hres := ih (level + 1) _ (by omega) (by omega) hadv
    have harith : level + 1 + k = level + (k + 1) := by omega
    rw [harith] at hres
    exact hres

theorem runP_inv (g : Graph) {pick : List Nat → Nat} (hv : ValidPick pick)
    {support : List Nat} {mx : Nat} (hmx : vectorMax support = some mx) :
    Inv support.length mx (mx + 1) (runP g pick support mx) := by
  have h := peelP_inv g hv mx 1 (initTruss support mx) (Nat.le_refl 1) (by omega)
    (initTruss_inv hmx)
  rw [show 1 + mx = mx + 1 by omega] at h
  exact h

theorem runP_completed (g : Graph) {pick : List Nat → Nat} (hv : ValidPick pick)
    {support : List Nat} {mx : Nat} (hmx : vectorMax support = some mx) :
    ∀ e, e < support.length →
      (runP g pick support mx).completed.getD e false = true := by
  intro e he
  have inv := runP_inv g hv hmx
  cases hc : (runP g pick support mx).completed.getD e false
  · have h1 := inv.supLevel e he hc
    have h2 := inv.supMax e he
    omega
  · rfl

/-! ### Triangle counting against edge predicates -/

/-- Uncompleted test on edge ids. -/
def uncB (st : PeelState) (y : Nat) : Bool := !(st.completed.getD y false)

/-- Alive at threshold l: uncompleted, or finalized with trussness at
least l + 2. -/
def aliveB (st : PeelState) (l y : Nat) : Bool :=
  !(st.completed.getD y false) ||
    (match st.trussness.getD y none with
     | some v => decide (l + 2 ≤ v)
     | none => false)

/-- Number of triangles of edge x (one per common neighbor of its
endpoints) whose two closing edges both satisfy P. -/
def triCount (g : Graph) (P : Nat → Bool) (x : Nat) : Nat :=
  ((commonNeighbors g (edgeEnds g x).1 (edgeEnds g x).2).filter
    (fun n =>
      match get_eid g (edgeEnds g x).1 n, get_eid g (edgeEnds g x).2 n with
      | some c1, some c2 => P c1 && P c2
      | _, _ => false)).length

theorem length_filter_mono {α : Type} (Q Q' : α → Bool) :
    ∀ (ns : List α), (∀ n ∈ ns, Q n = true → Q' n = true) →
      (ns.filter Q).length ≤ (ns.filter Q').length := by
  intro ns
  induction ns with
  | nil =>
    intro _
    exact Nat.le_refl 0
  | cons m ns ih =>
    intro h
    rw [List.filter_cons, List.filter_cons]
    have hrec := ih (fun n hn => h n (List.mem_cons_of_mem _ hn))
    by_cases hm : Q m = true
    · rw [if_pos hm, if_pos (h m (List.mem_cons_self _ _) hm)]
      simpa using hrec
    · rw [if_neg hm]
      by_cases hm' : Q' m = true
      · rw [if_pos hm']
        simp only [List.length_cons]
        omega
      · rw [if_neg hm']
        exact hrec

theorem length_filter_congr {α : Type} (Q Q' : α → Bool) (ns : List α)
    (h : ∀ n ∈ ns, Q n = Q' n) : (ns.filter Q).length = (ns.filter Q').length := by
  rw [List.filter_congr h]

/-- Removing the satisfaction of at most one element of a
duplicate-free list lowers the filter count by at most one. -/
theorem length_filter_drop_le {α : Type} [DecidableEq α] (Q Q' : α → Bool)
    (n0 : α) : ∀ (ns : List α),
      (∀ n ∈ ns, Q' n = true → Q n = true) →
      (∀ n ∈ ns, Q n = true → Q' n = false → n = n0) → ns.Nodup →
      (ns.filter Q).length ≤ (ns.filter Q').length + 1 := by
  intro ns
  induction ns with
  | nil =>
    intro _ _ _
    simp
  | cons m ns ih =>
    intro himp huni hnd
    rw [List.filter_cons, List.filter_cons]
    have hnd2 := (List.nodup_cons.mp hnd).2
    have hmn := (List.nodup_cons.mp hnd).1
    by_cases hm : Q m = true
    · rw [if_pos hm]
      by_cases hm' : Q' m = true
      · rw [if_pos hm']
        simp only [List.length_cons]
        have := ih (fun n hn => himp n (List.mem_cons_of_mem _ hn))
          (fun n hn h1 h2 => huni n (List.mem_cons_of_mem _ hn) h1 h2) hnd2
        omega
      · rw [if_neg hm']
        have hm0 : m = n0 :=
          huni m (List.mem_cons_self _ _) hm (Bool.eq_false_iff.mpr hm')
        have hsame : ∀ n ∈ ns, Q n = Q' n := by
          intro n hn
          by_cases hq : Q n = true
          · by_cases hq' : Q' n = true
            · rw [hq, hq']
            · have := huni n (List.mem_cons_of_mem _ hn) hq (Bool.eq_false_iff.mpr hq')
              rw [this, ← hm0] at hn
              exact absurd hn hmn
          · have : Q' n = false := by
              cases hq2 : Q' n
              · rfl
              · exact absurd (himp n (List.mem_cons_of_mem _ hn) hq2) hq
            rw [this, Bool.eq_false_iff.mpr hq]
        have hcg := length_filter_congr Q Q' ns hsame
        simp only [List.length_cons]
        omega
    · rw [if_neg hm]
      have hm' : ¬ Q' m = true := fun hq' => hm (himp m (List.mem_cons_self _ _) hq')
      rw [if_neg hm']
      exact ih (fun n hn => himp n (List.mem_cons_of_mem _ hn))
        (fun n hn h1 h2 => huni n (List.mem_cons_of_mem _ hn) h1 h2) hnd2

theorem commonNeighbors_nodup (g : Graph) (a b : Nat) :
    (commonNeighbors g a b).Nodup := by
  unfold commonNeighbors
  exact ((List.nodup_range g.V).filter _).filter _

/-- The closing edges of a common neighbor exist. -/
theorem cn_eids_exist {g : Graph} {a b n : Nat} (hn : n ∈ commonNeighbors g a b) :
    ∃ c1 c2, get_eid g a n = some c1 ∧ get_eid g b n = some c2 := by
  obtain ⟨_, _, hadj1, _, hadj2⟩ := (mem_commonNeighbors g a b n).mp hn
  have h1 := get_eid_isSome_of_adj hadj1
  have h2 := get_eid_isSome_of_adj hadj2
  obtain ⟨c1, hc1⟩ := Option.isSome_iff_exists.mp h1
  obtain ⟨c2, hc2⟩ := Option.isSome_iff_exists.mp h2
  exact ⟨c1, c2, hc1, hc2⟩

/-- Monotonicity of the triangle count in the predicate (over edges of
the graph). -/
theorem triCount_mono {g : Graph} (P P' : Nat → Bool)
    (h : ∀ y, y < ecount g → P y = true → P' y = true) (x : Nat) :
    triCount g P x ≤ triCount g P' x := by
  unfold triCount
  apply length_filter_mono
  intro n hn hq
  obtain ⟨c1, c2, hc1, hc2⟩ := cn_eids_exist hn
  rw [hc1, hc2] at hq
  rw [hc1, hc2]
  rw [Bool.and_eq_true] at hq
  rw [Bool.and_eq_true]
  exact ⟨h c1 (get_eid_lt hc1) hq.1, h c2 (get_eid_lt hc2) hq.2⟩

theorem triCount_congr {g : Graph} (P P' : Nat → Bool)
    (h : ∀ y, y < ecount g → P y = P' y) (x : Nat) :
    triCount g P x = triCount g P' x := by
  unfold triCount
  apply length_filter_congr
  intro n hn
  obtain ⟨c1, c2, hc1, hc2⟩ := cn_eids_exist hn
  rw [hc1, hc2]
  show (P c1 && P c2) = (P' c1 && P' c2)
  rw [h c1 (get_eid_lt hc1), h c2 (get_eid_lt hc2)]

theorem matches_set_eq {p : Nat × Nat} {a b c d : Nat}
    (h1 : edgeMatches p a b = true) (h2 : edgeMatches p c d = true) :
    (a = c ∧ b = d) ∨ (a = d ∧ b = c) := by
  rcases edgeMatches_iff.mp h1 with ⟨x1, x2⟩ | ⟨x1, x2⟩ <;>
    rcases edgeMatches_iff.mp h2 with ⟨y1, y2⟩ | ⟨y1, y2⟩ <;> omega

/-- Two unordered pairs resolving to the same edge id are the same
pair. -/
theorem eid_pair_determines {g : Graph} {a b c d x : Nat}
    (h1 : get_eid g a b = some x) (h2 : get_eid g c d = some x) :
    (a = c ∧ b = d) ∨ (a = d ∧ b = c) := by
  obtain ⟨p, hp, hm1⟩ := get_eid_matches h1
  obtain ⟨q, hq, hm2⟩ := get_eid_matches h2
  rw [hp] at hq
  cases hq
  exact matches_set_eq hm1 hm2

/-- An edge can close at most one triangle with a fixed base edge: the
common neighbor hitting a given closing edge id is unique. -/
theorem hit_m_unique {g : Graph} {u v x m1 m2 c1 c2 d1 d2 : Nat} (huv : u ≠ v)
    (hm1 : m1 ∈ commonNeighbors g u v) (hm2 : m2 ∈ commonNeighbors g u v)
    (h1u : get_eid g u m1 = some c1) (h1v : get_eid g v m1 = some c2)
    (h2u : get_eid g u m2 = some d1) (h2v : get_eid g v m2 = some d2)
    (hx1 : x = c1 ∨ x = c2) (hx2 : x = d1 ∨ x = d2) : m1 = m2 := by
  obtain ⟨_, hm1u, _, hm1v, _⟩ := (mem_commonNeighbors g u v m1).mp hm1
  obtain ⟨_, hm2u, _, hm2v, _⟩ := (mem_commonNeighbors g u v m2).mp hm2
  rcases hx1 with rfl | rfl <;> rcases hx2 with h | h
  · rw [← h] at h2u
    rcases eid_pair_determines h1u h2u with ⟨e1, e2⟩ | ⟨e1, e2⟩ <;> omega
  · rw [← h] at h2v
    rcases eid_pair_determines h1u h2v with ⟨e1, e2⟩ | ⟨e1, e2⟩ <;> omega
  · rw [← h] at h2u
    rcases eid_pair_determines h1v h2u with ⟨e1, e2⟩ | ⟨e1, e2⟩ <;> omega
  · rw [← h] at h2v
    rcases eid_pair_determines h1v h2v with ⟨e1, e2⟩ | ⟨e1, e2⟩ <;> omega

/-- A closing edge of a triangle over base (a, b) is never the base
edge itself. -/
theorem co_ne_base {g : Graph} {a b n x c : Nat} (hx : get_eid g a b = some x)
    (hn : n ∈ commonNeighbors g a b) (hc : get_eid g a n = some c) : c ≠ x := by
  obtain ⟨_, hna, _, hnb, _⟩ := (mem_commonNeighbors g a b n).mp hn
  intro hcx
  rw [hcx] at hc
  rcases eid_pair_determines hc hx with ⟨e1, e2⟩ | ⟨e1, e2⟩ <;> omega

/-- The two closing edges of one triangle are distinct. -/
theorem co_pair_ne {g : Graph} {u v m c1 c2 : Nat} (huv : u ≠ v)
    (hm : m ∈ commonNeighbors g u v) (h1 : get_eid g u m = some c1)
    (h2 : get_eid g v m = some c2) : c1 ≠ c2 := by
  obtain ⟨_, hmu, _, hmv, _⟩ := (mem_commonNeighbors g u v m).mp hm
  intro hcc
  rw [hcc] at h1
  rcases eid_pair_determines h1 h2 with ⟨e1, e2⟩ | ⟨e1, e2⟩ <;> omega

/-- Whether edge x is a closing edge, with uncompleted mate, of a
triangle over base (u, v) through one of the listed neighbors. -/
def hitInB (g : Graph) (st : PeelState) (u v x : Nat) (ns : List Nat) : Bool :=
  ns.any (fun m =>
    match get_eid g u m, get_eid g v m with
    | some c1, some c2 =>
      !(st.completed.getD c1 false) && !(st.completed.getD c2 false) &&
        (x == c1 || x == c2)
    | _, _ => false)

/-- Whether an iteration for the given seed demotes edge x (provided
its support is above the level). -/
def hitByB (g : Graph) (st : PeelState) (seed x : Nat) : Bool :=
  hitInB g st (edgeEnds g seed).1 (edgeEnds g seed).2 x
    (commonNeighbors g (edgeEnds g seed).1 (edgeEnds g seed).2)

theorem hitInB_congr {g : Graph} {st st' : PeelState} (u v x : Nat) (ns : List Nat)
    (h : st'.completed = st.completed) :
    hitInB g st' u v x ns = hitInB g st u v x ns := by
  unfold hitInB
  rw [h]

theorem handleCommon_reduce (g : Graph) (level u v : Nat) (st : PeelState)
    {m c1 c2 : Nat} (hc1 : get_eid g u m = some c1) (hc2 : get_eid g v m = some c2) :
    handleCommon g level u v st m =
      (if (st.completed.getD c1 false || st.completed.getD c2 false) = true
        then st else demote level c2 (demote level c1 st)) := by
  unfold handleCommon
  rw [hc1, hc2]

/-- Net effect of the common-neighbor fold on one support entry: an
edge is demoted exactly once when some listed neighbor closes a
triangle on it with both closing edges uncompleted and its support is
above the level; otherwise its support is untouched. -/
theorem foldCommon_support (g : Graph) (level u v : Nat) (huv : u ≠ v) :
    ∀ (ns : List Nat), ns.Nodup → (∀ m ∈ ns, m ∈ commonNeighbors g u v) →
      ∀ (st : PeelState) (x : Nat),
      (ns.foldl (handleCommon g level u v) st).support.getD x 0 =
        (if hitInB g st u v x ns = true ∧ level < st.support.getD x 0
          then st.support.getD x 0 - 1 else st.support.getD x 0) := by
  intro ns
  induction ns with
  | nil =>
    intro _ _ st x
    rw [if_neg (by unfold hitInB; simp)]
    rfl
  | cons m ns ih =>
    intro hnd hsub st x
    have hmcn : m ∈ commonNeighbors g u v := hsub m (List.mem_cons_self _ _)
    obtain ⟨c1, c2, hc1, hc2⟩ := cn_eids_exist hmcn
    have hc12 : c1 ≠ c2 := co_pair_ne huv hmcn hc1 hc2
    have hnd2 := (List.nodup_cons.mp hnd).2
    have hmns := (List.nodup_cons.mp hnd).1
    have hsub2 : ∀ m2 ∈ ns, m2 ∈ commonNeighbors g u v :=
      fun m2 hm2 => hsub m2 (List.mem_cons_of_mem _ hm2)
    rw [List.foldl_cons]
    have hred := handleCommon_reduce g level u v st hc1 hc2
    have hconsB : hitInB g st u v x (m :: ns) =
        ((!(st.completed.getD c1 false) && !(st.completed.getD c2 false) &&
          (x == c1 || x == c2)) || hitInB g st u v x ns) := by
      unfold hitInB
      rw [List.any_cons, hc1, hc2]
    by_cases hcompl : (st.completed.getD c1 false || st.completed.getD c2 false) = true
    · rw [hred, if_pos hcompl, ih hnd2 hsub2 st x]
      have hhead0 : (!(st.completed.getD c1 false) &&
          !(st.completed.getD c2 false) && (x == c1 || x == c2)) = false := by
        cases h1 : st.completed.getD c1 false
        · cases h2 : st.completed.getD c2 false
          · rw [h1, h2] at hcompl
            simp at hcompl
          · simp
        · simp
      rw [hconsB, hhead0, Bool.false_or]
    · have hu1 : st.completed.getD c1 false = false := by
        cases h : st.completed.getD c1 false
        · rfl
        · exfalso
          apply hcompl
          rw [h]
          simp
      have hu2 : st.completed.getD c2 false = false := by
        cases h : st.completed.getD c2 false
        · rfl
        · exfalso
          apply hcompl
          rw [h]
          simp
      rw [hred, if_neg hcompl]
      have hst1com : (demote level c2 (demote level c1 st)).completed =
          st.completed := by
        rw [demote_completed, demote_completed]
      rw [ih hnd2 hsub2 _ x, hitInB_congr u v x ns hst1com]
      by_cases hxc : x = c1 ∨ x = c2
      · have hnsB : hitInB g st u v x ns = false := by
          cases hany : hitInB g st u v x ns
          · rfl
          · exfalso
            unfold hitInB at hany
            obtain ⟨m2, hm2, hf⟩ := List.any_eq_true.mp hany
            obtain ⟨d1, d2, hd1, hd2⟩ := cn_eids_exist (hsub2 m2 hm2)
            rw [hd1, hd2] at hf
            rw [Bool.and_eq_true, Bool.or_eq_true] at hf
            have hxd : x = d1 ∨ x = d2 := by
              rcases hf.2 with h | h
              · exact Or.inl (by simpa using h)
              · exact Or.inr (by simpa using h)
            have heq := hit_m_unique huv hmcn (hsub2 m2 hm2) hc1 hc2 hd1 hd2 hxc hxd
            rw [heq] at hmns
            exact hmns hm2
        have hheadT : (!(st.completed.getD c1 false) &&
            !(st.completed.getD c2 false) && (x == c1 || x == c2)) = true := by
          rw [hu1, hu2]
          rcases hxc with h | h <;> rw [h] <;> simp
        rw [hconsB, hheadT, Bool.true_or, hnsB]
        rw [if_neg (by simp)]
        have hstx : (demote level c2 (demote level c1 st)).support.getD x 0 =
            (if level < st.support.getD x 0 then st.support.getD x 0 - 1
              else st.support.getD x 0) := by
          rcases hxc with h | h
          · rw [h]
            rw [demote_support_ne hc12]
            rw [← h]
            by_cases hgt : level < st.support.getD x 0
            · rw [if_pos hgt]
              rw [h] at hgt ⊢
              exact demote_support_self hgt
            · rw [if_neg hgt]
              rw [h] at hgt ⊢
              rw [demote_noop hgt]
          · have hs1 : (demote level c1 st).support.getD x 0 =
                st.support.getD x 0 := by
              rw [h]
              exact demote_support_ne (fun hh => hc12 hh.symm)
            by_cases hgt : level < st.support.getD x 0
            · rw [if_pos hgt]
              have hgt1 : level < (demote level c1 st).support.getD x 0 := by
                rw [hs1]
                exact hgt
              rw [h] at hgt1 ⊢
              have hself := demote_support_self hgt1
              rw [hself]
              rw [← h, hs1, h]
            · rw [if_neg hgt]
              have hgt1 : ¬ level < (demote level c1 st).support.getD x 0 := by
                rw [hs1]
                exact hgt
              rw [h] at hgt1 ⊢
              rw [demote_noop hgt1]
              rw [← h, hs1]
        rw [hstx]
        by_cases hgt : level < st.support.getD x 0
        · rw [if_pos hgt, if_pos ⟨rfl, hgt⟩]
        · rw [if_neg hgt, if_neg (fun hcon => hgt hcon.2)]
      · have hxc1 : x ≠ c1 := fun h => hxc (Or.inl h)
        have hxc2 : x ≠ c2 := fun h => hxc (Or.inr h)
        have hsx : (demote level c2 (demote level c1 st)).support.getD x 0 =
            st.support.getD x 0 := by
          rw [demote_support_ne hxc2, demote_support_ne hxc1]
        have hhead0 : (!(st.completed.getD c1 false) &&
            !(st.completed.getD c2 false) && (x == c1 || x == c2)) = false := by
          have b1 : (x == c1) = false := by simpa using hxc1
          have b2 : (x == c2) = false := by simpa using hxc2
          rw [b1, b2]
          simp
        rw [hconsB, hhead0, Bool.false_or, hsx]

theorem length_filter_lt {α : Type} (Q Q' : α → Bool) :
    ∀ (ns : List α), (∀ n ∈ ns, Q' n = true → Q n = true) →
      ∀ n0 ∈ ns, Q n0 = true → Q' n0 = false →
      (ns.filter Q').length + 1 ≤ (ns.filter Q).length := by
  intro ns
  induction ns with
  | nil =>
    intro _ n0 h
    simp at h
  | cons m ns ih =>
    intro himp n0 hn0 hq hq'
    rw [List.filter_cons, List.filter_cons]
    rcases List.mem_cons.mp hn0 with rfl | hn0m
    · rw [if_pos hq, if_neg (by rw [hq']; simp)]
      simp only [List.length_cons]
      have := length_filter_mono Q' Q ns (fun n hn => himp n (List.mem_cons_of_mem _ hn))
      omega
    · have hrec := ih (fun n hn => himp n (List.mem_cons_of_mem _ hn)) n0 hn0m hq hq'
      by_cases hm : Q m = true
      · rw [if_pos hm]
        by_cases hm' : Q' m = true
        · rw [if_pos hm']
          simp only [List.length_cons]
          omega
        · rw [if_neg hm']
          simp only [List.length_cons]
          omega
      · have hm' : ¬ Q' m = true := fun h => hm (himp m (List.mem_cons_self _ _) h)
        rw [if_neg hm, if_neg hm']
        exact hrec

/-- If every satisfying element except possibly one keeps satisfying,
the filter count drops by at most one. -/
theorem length_filter_ge_sub_one {α : Type} [DecidableEq α] (Q Q' : α → Bool)
    (n0 : α) : ∀ (ns : List α), ns.Nodup →
      (∀ n ∈ ns, n ≠ n0 → Q n = true → Q' n = true) →
      (ns.filter Q).length ≤ (ns.filter Q').length + 1 := by
  intro ns
  induction ns with
  | nil =>
    intro _ _
    simp
  | cons m ns ih =>
    intro hnd h
    have hnd2 := (List.nodup_cons.mp hnd).2
    have hmns := (List.nodup_cons.mp hnd).1
    rw [List.filter_cons, List.filter_cons]
    by_cases hm0 : m = n0
    · subst hm0
      have hmono : (ns.filter Q).length ≤ (ns.filter Q').length := by
        apply length_filter_mono
        intro n hn hq
        exact h n (List.mem_cons_of_mem _ hn) (fun he => hmns (he ▸ hn)) hq
      by_cases hq : Q m = true
      · rw [if_pos hq]
        by_cases hq' : Q' m = true
        · rw [if_pos hq']
          simp only [List.length_cons]
          omega
        · rw [if_neg hq']
          simp only [List.length_cons]
          omega
      · rw [if_neg hq]
        by_cases hq' : Q' m = true
        · rw [if_pos hq']
          simp only [List.length_cons]
          omega
        · rw [if_neg hq']
          omega
    · have hrec := ih hnd2 (fun n hn hne hq => h n (List.mem_cons_of_mem _ hn) hne hq)
      by_cases hq : Q m = true
      · rw [if_pos hq, if_pos (h m (List.mem_cons_self _ _) hm0 hq)]
        simp only [List.length_cons]
        omega
      · rw [if_neg hq]
        by_cases hq' : Q' m = true
        · rw [if_pos hq']
          simp only [List.length_cons]
          omega
        · rw [if_neg hq']
          exact hrec

/-- Adjacency as existence of a stored matching edge. -/
def adjE (g : Graph) (a b : Nat) : Prop := ∃ p ∈ g.edges, edgeMatches p a b = true

theorem adjE_comm {g : Graph} {a b : Nat} (h : adjE g a b) : adjE g b a := by
  obtain ⟨p, hp, hm⟩ := h
  exact ⟨p, hp, by rw [edgeMatches_comm]; exact hm⟩

theorem adjE_of_eid {g : Graph} {a b i : Nat} (h : get_eid g a b = some i) :
    adjE g a b := by
  obtain ⟨p, hp, hm⟩ := get_eid_matches h
  obtain ⟨hlt, hval⟩ := List.get?_eq_some.mp hp
  exact ⟨p, by rw [← hval]; exact List.get_mem _ _ _, hm⟩

theorem adjE_of_edge {g : Graph} {e : Nat} (he : e < ecount g) :
    adjE g (edgeEnds g e).1 (edgeEnds g e).2 :=
  ⟨edgeEnds g e, ends_mem he, edgeMatches_self _⟩

theorem mem_commonNeighbors_adj (g : Graph) (a b n : Nat) :
    n ∈ commonNeighbors g a b ↔
      (n < g.V ∧ n ≠ a ∧ adjE g a n ∧ n ≠ b ∧ adjE g b n) :=
  mem_commonNeighbors g a b n

theorem seedStep_trussness (g : Graph) (level seed : Nat) (st : PeelState) :
    (seedStep g level seed st).trussness =
      st.trussness.set seed (some (level + 2)) := by
  show ((commonNeighbors g (edgeEnds g seed).1 (edgeEnds g seed).2).foldl
      (handleCommon g level (edgeEnds g seed).1 (edgeEnds g seed).2)
      { st with buckets := bucketErase st.buckets level seed }).trussness.set seed
      (some (level + 2)) = st.trussness.set seed (some (level + 2))
  rw [foldCommon_trussness]

/-- Net effect of a full seed iteration on one support entry. -/
theorem seedStep_support (g : Graph) (level seed : Nat) (st : PeelState)
    (huv : (edgeEnds g seed).1 ≠ (edgeEnds g seed).2) (x : Nat) :
    (seedStep g level seed st).support.getD x 0 =
      (if hitByB g st seed x = true ∧ level < st.support.getD x 0
        then st.support.getD x 0 - 1 else st.support.getD x 0) := by
  show ((commonNeighbors g (edgeEnds g seed).1 (edgeEnds g seed).2).foldl
      (handleCommon g level (edgeEnds g seed).1 (edgeEnds g seed).2)
      { st with buckets := bucketErase st.buckets level seed }).support.getD x 0 = _
  rw [foldCommon_support g level _ _ huv _
    (commonNeighbors_nodup g _ _) (fun m hm => hm) _ x]
  rw [hitInB_congr _ _ x _
    (show ({ st with buckets := bucketErase st.buckets level seed } :
      PeelState).completed = st.completed from rfl)]
  rfl

/-- Concrete characterization of the demotion test for one seed. -/
theorem hitByB_iff {g : Graph} {st : PeelState} {seed x : Nat} :
    hitByB g st seed x = true ↔
      ∃ m ∈ commonNeighbors g (edgeEnds g seed).1 (edgeEnds g seed).2,
        ∃ c1 c2, get_eid g (edgeEnds g seed).1 m = some c1 ∧
          get_eid g (edgeEnds g seed).2 m = some c2 ∧
          st.completed.getD c1 false = false ∧
          st.completed.getD c2 false = false ∧ (x = c1 ∨ x = c2) := by
  unfold hitByB hitInB
  rw [List.any_eq_true]
  constructor
  · rintro ⟨m, hm, htest⟩
    obtain ⟨c1, c2, hc1, hc2⟩ := cn_eids_exist hm
    rw [hc1, hc2] at htest
    simp only [Bool.and_eq_true, Bool.or_eq_true, Bool.not_eq_true',
      beq_iff_eq] at htest
    obtain ⟨⟨h1, h2⟩, h3⟩ := htest
    exact ⟨m, hm, c1, c2, hc1, hc2, h1, h2, h3⟩
  · rintro ⟨m, hm, c1, c2, hc1, hc2, h1, h2, h3⟩
    refine ⟨m, hm, ?_⟩
    rw [hc1, hc2]
    simp only [Bool.and_eq_true, Bool.or_eq_true, Bool.not_eq_true',
      beq_iff_eq]
    exact ⟨⟨h1, h2⟩, h3⟩

/-- Transfer of a shared triangle between the enumerations of two of
its edges: a triangle listed from the base (a, b) of edge x whose
closing edges include edge s (with ends (u, v)) appears in the
enumeration from (u, v) with closing edges drawn from x and the
remaining edges of the triangle. -/
theorem triangle_transfer {g : Graph} {u v a b s x n d1 d2 : Nat}
    (hus : get_eid g u v = some s) (hax : get_eid g a b = some x)
    (hab : a ≠ b) (haV : a < g.V) (hbV : b < g.V)
    (hn : n ∈ commonNeighbors g a b)
    (hd1 : get_eid g a n = some d1) (hd2 : get_eid g b n = some d2)
    (hds : d1 = s ∨ d2 = s) :
    ∃ m ∈ commonNeighbors g u v, ∃ c1 c2,
      get_eid g u m = some c1 ∧ get_eid g v m = some c2 ∧
      (c1 = x ∨ c2 = x) ∧ (c1 = x ∨ c1 = d1 ∨ c1 = d2) ∧
      (c2 = x ∨ c2 = d1 ∨ c2 = d2) := by
  obtain ⟨hnV, hna, hadjan, hnb, hadjbn⟩ := (mem_commonNeighbors_adj g a b n).mp hn
  rcases hds with rfl | rfl
  · rcases eid_pair_determines hd1 hus with ⟨rfl, rfl⟩ | ⟨rfl, rfl⟩
    · refine ⟨b, (mem_commonNeighbors_adj g a n b).mpr
        ⟨hbV, Ne.symm hab, adjE_of_eid hax, Ne.symm hnb, adjE_comm hadjbn⟩,
        x, d2, hax, ?_, Or.inl rfl, Or.inl rfl, Or.inr (Or.inr rfl)⟩
      rw [get_eid_comm]
      exact hd2
    · refine ⟨b, (mem_commonNeighbors_adj g n a b).mpr
        ⟨hbV, Ne.symm hnb, adjE_comm hadjbn, Ne.symm hab, adjE_of_eid hax⟩,
        d2, x, ?_, hax, Or.inr rfl, Or.inr (Or.inr rfl), Or.inl rfl⟩
      rw [get_eid_comm]
      exact hd2
  · rcases eid_pair_determines hd2 hus with ⟨rfl, rfl⟩ | ⟨rfl, rfl⟩
    · refine ⟨a, (mem_commonNeighbors_adj g b n a).mpr
        ⟨haV, hab, adjE_comm (adjE_of_eid hax), Ne.symm hna, adjE_comm hadjan⟩,
        x, d1, ?_, ?_, Or.inl rfl, Or.inl rfl, Or.inr (Or.inl rfl)⟩
      · rw [get_eid_comm]
        exact hax
      · rw [get_eid_comm]
        exact hd1
    · refine ⟨a, (mem_commonNeighbors_adj g n b a).mpr
        ⟨haV, Ne.symm hna, adjE_comm hadjan, hab, adjE_comm (adjE_of_eid hax)⟩,
        d1, x, ?_, ?_, Or.inr rfl, Or.inr (Or.inl rfl), Or.inl rfl⟩
      · rw [get_eid_comm]
        exact hd1
      · rw [get_eid_comm]
        exact hax

theorem uncB_of_unc {st : PeelState} {z : Nat}
    (h : st.completed.getD z false = false) : uncB st z = true := by
  unfold uncB
  rw [h]
  rfl

theorem aliveB_of_unc {st : PeelState} (l : Nat) {y : Nat}
    (h : st.completed.getD y false = false) : aliveB st l y = true := by
  unfold aliveB
  rw [h]
  rfl

theorem aliveB_mono_level {st : PeelState} {l l' y : Nat} (h : l' ≤ l)
    (ha : aliveB st l y = true) : aliveB st l' y = true := by
  unfold aliveB at ha ⊢
  rw [Bool.or_eq_true] at ha ⊢
  rcases ha with h1 | h2
  · exact Or.inl h1
  · right
    cases ht : st.trussness.getD y none with
    | none =>
      rw [ht] at h2
      exact absurd h2 (by simp)
    | some w =>
      rw [ht] at h2
      show decide (l' + 2 ≤ w) = true
      have h2' : l + 2 ≤ w := of_decide_eq_true h2
      exact decide_eq_true (by omega)

theorem aliveB_true_cases {st : PeelState} {l y : Nat}
    (h : aliveB st l y = true) :
    st.completed.getD y false = false ∨
      ∃ w, st.trussness.getD y none = some w ∧ l + 2 ≤ w := by
  unfold aliveB at h
  rw [Bool.or_eq_true] at h
  rcases h with h1 | h2
  · left
    rw [Bool.not_eq_true'] at h1
    exact h1
  · right
    cases ht : st.trussness.getD y none with
    | none =>
      rw [ht] at h2
      exact absurd h2 (by simp)
    | some w =>
      rw [ht] at h2
      exact ⟨w, rfl, of_decide_eq_true h2⟩

theorem seedStep_uncB_ne (g : Graph) (level seed : Nat) (st : PeelState)
    {y : Nat} (hy : y ≠ seed) :
    uncB (seedStep g level seed st) y = uncB st y := by
  unfold uncB
  rw [seedStep_completed, getD_set_ne _ _ _ (Ne.symm hy)]

theorem seedStep_uncB_seed (g : Graph) (level seed : Nat) (st : PeelState)
    (hcl : seed < st.completed.length) :
    uncB (seedStep g level seed st) seed = false := by
  unfold uncB
  rw [seedStep_completed, getD_set_self _ _ _ _ hcl]
  rfl

theorem seedStep_uncB_imp (g : Graph) (level seed : Nat) (st : PeelState) :
    ∀ y, uncB (seedStep g level seed st) y = true → uncB st y = true := by
  intro y hy
  by_cases hys : y = seed
  · subst hys
    by_cases hlen : y < st.completed.length
    · rw [seedStep_uncB_seed g level y st hlen] at hy
      exact absurd hy (by simp)
    · unfold uncB at hy ⊢
      rw [seedStep_completed, List.set_eq_of_length_le (by omega)] at hy
      exact hy
  · rw [seedStep_uncB_ne g level seed st hys] at hy
    exact hy

theorem seedStep_aliveB_ne (g : Graph) (level seed : Nat) (st : PeelState)
    {y : Nat} (hy : y ≠ seed) (l : Nat) :
    aliveB (seedStep g level seed st) l y = aliveB st l y := by
  unfold aliveB
  rw [seedStep_completed, seedStep_trussness]
  rw [getD_set_ne _ _ _ (Ne.symm hy), getD_set_ne _ _ _ (Ne.symm hy)]

theorem seedStep_aliveB_seed (g : Graph) (level seed : Nat) (st : PeelState)
    (hcl : seed < st.completed.length) (htl : seed < st.trussness.length)
    (l : Nat) :
    aliveB (seedStep g level seed st) l seed = decide (l ≤ level) := by
  unfold aliveB
  rw [seedStep_completed, seedStep_trussness]
  rw [getD_set_self _ _ _ _ hcl, getD_set_self _ _ _ _ htl]
  show (!true || decide (l + 2 ≤ level + 2)) = decide (l ≤ level)
  rw [Bool.not_true, Bool.false_or]
  exact decide_eq_decide.mpr (by constructor <;> (intro h; omega))

/-- The filter test of the triangle count, as a named function. -/
def triPred (g : Graph) (P : Nat → Bool) (x n : Nat) : Bool :=
  match get_eid g (edgeEnds g x).1 n, get_eid g (edgeEnds g x).2 n with
  | some c1, some c2 => P c1 && P c2
  | _, _ => false

theorem triCount_eq (g : Graph) (P : Nat → Bool) (x : Nat) :
    triCount g P x =
      ((commonNeighbors g (edgeEnds g x).1 (edgeEnds g x).2).filter
        (triPred g P x)).length := by
  unfold triCount
  congr 1

theorem triPred_resolve {g : Graph} (P : Nat → Bool) {x n c1 c2 : Nat}
    (hc1 : get_eid g (edgeEnds g x).1 n = some c1)
    (hc2 : get_eid g (edgeEnds g x).2 n = some c2) :
    triPred g P x n = (P c1 && P c2) := by
  unfold triPred
  rw [hc1, hc2]

/-- Triangle-counting invariant tying supports and recorded trussness
values to the graph, carried through the peeling run. -/
structure InvT (g : Graph) (E level : Nat) (st : PeelState) : Prop where
  suppT : ∀ x, x < E → st.completed.getD x false = false →
    triCount g (uncB st) x ≤ st.support.getD x 0
  creditUnc : ∀ x, x < E → st.completed.getD x false = false →
    st.support.getD x 0 ≤ triCount g (aliveB st (st.support.getD x 0)) x
  creditCom : ∀ x v, x < E → st.trussness.getD x none = some v →
    v - 2 ≤ triCount g (aliveB st (v - 2)) x
  vLevel : ∀ x v, x < E → st.trussness.getD x none = some v → v ≤ level + 2

theorem seedStep_invT (g : Graph) (hs : Simple g) {E mx level : Nat}
    (hE : ecount g = E) {st : PeelState} (hlev : 1 ≤ level)
    (inv : Inv E mx level st) {seed : Nat}
    (hmem : seed ∈ bucketGet st.buckets level)
    (invT : InvT g E level st) :
    InvT g E level (seedStep g level seed st) := by
  have hseedE : seed < E := inv.mem_lt level seed hmem
  have hseedg : seed < ecount g := by rw [hE]; exact hseedE
  have hsunc : st.completed.getD seed false = false := bucket_unc hlev inv hlev hmem
  have hssup : st.support.getD seed 0 = level := inv.mem_sup level seed hmem
  have hcl : seed < st.completed.length := by rw [inv.comLen]; exact hseedE
  have htl : seed < st.trussness.length := by rw [inv.truLen]; exact hseedE
  have huv := simple_ends_ne hs hseedg
  have hC := seedStep_completed g level seed st
  have hT := seedStep_trussness g level seed st
  have hSup := fun x => seedStep_support g level seed st huv x
  have huncseed := seedStep_uncB_seed g level seed st hcl
  have halseed := seedStep_aliveB_seed g level seed st hcl htl
  have hC' : ∀ y, y ≠ seed →
      (seedStep g level seed st).completed.getD y false =
        st.completed.getD y false := by
    intro y hy
    rw [hC]
    exact getD_set_ne _ _ _ (Ne.symm hy)
  have hCseed : (seedStep g level seed st).completed.getD seed false = true := by
    rw [hC]
    exact getD_set_self _ _ _ _ hcl
  have hT' : ∀ y, y ≠ seed →
      (seedStep g level seed st).trussness.getD y none =
        st.trussness.getD y none := by
    intro y hy
    rw [hT]
    exact getD_set_ne _ _ _ (Ne.symm hy)
  have hTseed : (seedStep g level seed st).trussness.getD seed none =
      some (level + 2) := by
    rw [hT]
    exact getD_set_self _ _ _ _ htl
  refine { suppT := ?_, creditUnc := ?_, creditCom := ?_, vLevel := ?_ }
  -- suppT
  · intro x hx hxc'
    have hxs : x ≠ seed := by
      intro h
      rw [h, hCseed] at hxc'
      exact Bool.noConfusion hxc'
    have hxc : st.completed.getD x false = false := by
      rw [← hC' x hxs]
      exact hxc'
    have hxg : x < ecount g := by rw [hE]; exact hx
    rw [hSup x]
    by_cases hcase : hitByB g st seed x = true ∧ level < st.support.getD x 0
    · rw [if_pos hcase]
      have hold := invT.suppT x hx hxc
      have hdrop : triCount g (uncB (seedStep g level seed st)) x + 1 ≤
          triCount g (uncB st) x := by
        rw [triCount_eq, triCount_eq]
        obtain ⟨m, hm, c1, c2, hc1, hc2, hu1, hu2, hxc12⟩ :=
          hitByB_iff.mp hcase.1
        obtain ⟨n0, hn0, e1, e2, he1, he2, hes, he1s, he2s⟩ :=
          triangle_transfer (eid_ends hs hxg) (eid_ends hs hseedg)
            (simple_ends_ne hs hseedg) (simple_ends_lt hs hseedg).1
            (simple_ends_lt hs hseedg).2 hm hc1 hc2
            (by rcases hxc12 with h | h
                · exact Or.inl h.symm
                · exact Or.inr h.symm)
        have himp : ∀ n ∈ commonNeighbors g (edgeEnds g x).1 (edgeEnds g x).2,
            triPred g (uncB (seedStep g level seed st)) x n = true →
              triPred g (uncB st) x n = true := by
          intro n hn hq
          obtain ⟨d1, d2, hd1, hd2⟩ := cn_eids_exist hn
          rw [triPred_resolve _ hd1 hd2] at hq ⊢
          rw [Bool.and_eq_true] at hq ⊢
          exact ⟨seedStep_uncB_imp g level seed st d1 hq.1,
                 seedStep_uncB_imp g level seed st d2 hq.2⟩
        have hQ : triPred g (uncB st) x n0 = true := by
          rw [triPred_resolve _ he1 he2, Bool.and_eq_true]
          constructor
          · rcases he1s with rfl | rfl | rfl
            · exact uncB_of_unc hsunc
            · exact uncB_of_unc hu1
            · exact uncB_of_unc hu2
          · rcases he2s with rfl | rfl | rfl
            · exact uncB_of_unc hsunc
            · exact uncB_of_unc hu1
            · exact uncB_of_unc hu2
        have hQ' : triPred g (uncB (seedStep g level seed st)) x n0 = false := by
          rw [triPred_resolve _ he1 he2]
          rcases hes with rfl | rfl
          · rw [huncseed, Bool.false_and]
          · rw [huncseed, Bool.and_false]
        exact length_filter_lt _ _ _ himp n0 hn0 hQ hQ'
      omega
    · rw [if_neg hcase]
      have h1 : triCount g (uncB (seedStep g level seed st)) x ≤
          triCount g (uncB st) x :=
        triCount_mono _ _ (fun y _ => seedStep_uncB_imp g level seed st y) x
      have h2 := invT.suppT x hx hxc
      omega
  -- creditUnc
  · intro x hx hxc'
    have hxs : x ≠ seed := by
      intro h
      rw [h, hCseed] at hxc'
      exact Bool.noConfusion hxc'
    have hxc : st.completed.getD x false = false := by
      rw [← hC' x hxs]
      exact hxc'
    have hxg : x < ecount g := by rw [hE]; exact hx
    have hold := invT.creditUnc x hx hxc
    rw [hSup x]
    by_cases hcase : hitByB g st seed x = true ∧ level < st.support.getD x 0
    · rw [if_pos hcase]
      by_cases hS1 : st.support.getD x 0 = level + 1
      · have hmono : triCount g (aliveB st (st.support.getD x 0)) x ≤
            triCount g (aliveB (seedStep g level seed st)
              (st.support.getD x 0 - 1)) x := by
          apply triCount_mono
          intro y hy hal
          by_cases hys : y = seed
          · subst hys
            rw [halseed]
            exact decide_eq_true (by omega)
          · rw [seedStep_aliveB_ne g level seed st hys]
            exact aliveB_mono_level (by omega) hal
        omega
      · obtain ⟨n0, hkey⟩ : ∃ n0, ∀ n ∈ commonNeighbors g (edgeEnds g x).1
            (edgeEnds g x).2, n ≠ n0 →
            triPred g (aliveB st (st.support.getD x 0)) x n = true →
            triPred g (aliveB (seedStep g level seed st)
              (st.support.getD x 0 - 1)) x n = true := by
          by_cases hex : ∃ n ∈ commonNeighbors g (edgeEnds g x).1
              (edgeEnds g x).2,
              (get_eid g (edgeEnds g x).1 n = some seed ∨
               get_eid g (edgeEnds g x).2 n = some seed)
          · obtain ⟨n0, hn0, hn0s⟩ := hex
            refine ⟨n0, ?_⟩
            intro n hn hne hq
            obtain ⟨d1, d2, hd1, hd2⟩ := cn_eids_exist hn
            rw [triPred_resolve _ hd1 hd2] at hq
            rw [triPred_resolve _ hd1 hd2]
            rw [Bool.and_eq_true] at hq ⊢
            obtain ⟨f1, f2, hf1, hf2⟩ := cn_eids_exist hn0
            have hxx : seed = f1 ∨ seed = f2 := by
              rcases hn0s with hh | hh
              · left
                rw [hf1] at hh
                exact (Option.some.inj hh).symm
              · right
                rw [hf2] at hh
                exact (Option.some.inj hh).symm
            have hd1s : d1 ≠ seed := by
              intro h
              exact hne (hit_m_unique (simple_ends_ne hs hxg) hn hn0 hd1 hd2
                hf1 hf2 (Or.inl h.symm) hxx)
            have hd2s : d2 ≠ seed := by
              intro h
              exact hne (hit_m_unique (simple_ends_ne hs hxg) hn hn0 hd1 hd2
                hf1 hf2 (Or.inr h.symm) hxx)
            constructor
            · rw [seedStep_aliveB_ne g level seed st hd1s]
              exact aliveB_mono_level (by omega) hq.1
            · rw [seedStep_aliveB_ne g level seed st hd2s]
              exact aliveB_mono_level (by omega) hq.2
          · refine ⟨0, ?_⟩
            intro n hn _ hq
            obtain ⟨d1, d2, hd1, hd2⟩ := cn_eids_exist hn
            rw [triPred_resolve _ hd1 hd2] at hq
            rw [triPred_resolve _ hd1 hd2]
            rw [Bool.and_eq_true] at hq ⊢
            have hd1s : d1 ≠ seed := by
              intro h
              exact hex ⟨n, hn, Or.inl (h ▸ hd1)⟩
            have hd2s : d2 ≠ seed := by
              intro h
              exact hex ⟨n, hn, Or.inr (h ▸ hd2)⟩
            constructor
            · rw [seedStep_aliveB_ne g level seed st hd1s]
              exact aliveB_mono_level (by omega) hq.1
            · rw [seedStep_aliveB_ne g level seed st hd2s]
              exact aliveB_mono_level (by omega) hq.2
        have hcnt : triCount g (aliveB st (st.support.getD x 0)) x ≤
            triCount g (aliveB (seedStep g level seed st)
              (st.support.getD x 0 - 1)) x + 1 := by
          rw [triCount_eq, triCount_eq]
          exact length_filter_ge_sub_one _ _ n0 _
            (commonNeighbors_nodup g _ _) hkey
        omega
    · rw [if_neg hcase]
      by_cases hSle : st.support.getD x 0 ≤ level
      · have hmono : triCount g (aliveB st (st.support.getD x 0)) x ≤
            triCount g (aliveB (seedStep g level seed st)
              (st.support.getD x 0)) x := by
          apply triCount_mono
          intro y hy hal
          by_cases hys : y = seed
          · subst hys
            rw [halseed]
            exact decide_eq_true (by omega)
          · rw [seedStep_aliveB_ne g level seed st hys]
            exact hal
        omega
      · have hnohit : ¬ hitByB g st seed x = true := by
          intro hh
          exact hcase ⟨hh, by omega⟩
        have hmono : triCount g (aliveB st (st.support.getD x 0)) x ≤
            triCount g (aliveB (seedStep g level seed st)
              (st.support.getD x 0)) x := by
          rw [triCount_eq, triCount_eq]
          apply length_filter_mono
          intro n hn hq
          obtain ⟨d1, d2, hd1, hd2⟩ := cn_eids_exist hn
          rw [triPred_resolve _ hd1 hd2] at hq
          rw [triPred_resolve _ hd1 hd2]
          rw [Bool.and_eq_true] at hq ⊢
          have hd1s : d1 ≠ seed := by
            intro h
            subst h
            rcases aliveB_true_cases hq.2 with hud2 | ⟨w, hw, hwge⟩
            · obtain ⟨m, hm, c1, c2, hcc1, hcc2, hcx, hc1s, hc2s⟩ :=
                triangle_transfer (eid_ends hs hseedg) (eid_ends hs hxg)
                  (simple_ends_ne hs hxg) (simple_ends_lt hs hxg).1
                  (simple_ends_lt hs hxg).2 hn hd1 hd2 (Or.inl rfl)
              apply hnohit
              apply hitByB_iff.mpr
              refine ⟨m, hm, c1, c2, hcc1, hcc2, ?_, ?_, ?_⟩
              · rcases hc1s with rfl | rfl | rfl
                · exact hxc
                · exact hsunc
                · exact hud2
              · rcases hc2s with rfl | rfl | rfl
                · exact hxc
                · exact hsunc
                · exact hud2
              · rcases hcx with h | h
                · exact Or.inl h.symm
                · exact Or.inr h.symm
            · have hd2E : d2 < E := by rw [← hE]; exact get_eid_lt hd2
              have := invT.vLevel d2 w hd2E hw
              omega
          have hd2s : d2 ≠ seed := by
            intro h
            subst h
            rcases aliveB_true_cases hq.1 with hud1 | ⟨w, hw, hwge⟩
            · obtain ⟨m, hm, c1, c2, hcc1, hcc2, hcx, hc1s, hc2s⟩ :=
                triangle_transfer (eid_ends hs hseedg) (eid_ends hs hxg)
                  (simple_ends_ne hs hxg) (simple_ends_lt hs hxg).1
                  (simple_ends_lt hs hxg).2 hn hd1 hd2 (Or.inr rfl)
              apply hnohit
              apply hitByB_iff.mpr
              refine ⟨m, hm, c1, c2, hcc1, hcc2, ?_, ?_, ?_⟩
              · rcases hc1s with rfl | rfl | rfl
                · exact hxc
                · exact hud1
                · exact hsunc
              · rcases hc2s with rfl | rfl | rfl
                · exact hxc
                · exact hud1
                · exact hsunc
              · rcases hcx with h | h
                · exact Or.inl h.symm
                · exact Or.inr h.symm
            · have hd1E : d1 < E := by rw [← hE]; exact get_eid_lt hd1
              have := invT.vLevel d1 w hd1E hw
              omega
          constructor
          · rw [seedStep_aliveB_ne g level seed st hd1s]
            exact hq.1
          · rw [seedStep_aliveB_ne g level seed st hd2s]
            exact hq.2
        omega
  -- creditCom
  · intro x v hx htv'
    by_cases hxs : x = seed
    · subst hxs
      rw [hTseed] at htv'
      have hv : v = level + 2 := by
        injection htv' with h
        omega
      subst hv
      have h22 : level + 2 - 2 = level := by omega
      rw [h22]
      have hold := invT.creditUnc x hseedE hsunc
      rw [hssup] at hold
      have hcongr : triCount g (aliveB st level) x =
          triCount g (aliveB (seedStep g level x st) level) x := by
        apply triCount_congr
        intro y hy
        by_cases hys : y = x
        · subst hys
          rw [halseed, aliveB_of_unc level hsunc]
          exact (decide_eq_true (Nat.le_refl level)).symm
        · rw [seedStep_aliveB_ne g level x st hys]
      omega
    · rw [hT' x hxs] at htv'
      have hold := invT.creditCom x v hx htv'
      have hv2 : v - 2 ≤ level := by
        have := invT.vLevel x v hx htv'
        omega
      have hcongr : triCount g (aliveB st (v - 2)) x =
          triCount g (aliveB (seedStep g level seed st) (v - 2)) x := by
        apply triCount_congr
        intro y hy
        by_cases hys : y = seed
        · subst hys
          rw [halseed, aliveB_of_unc (v - 2) hsunc]
          exact (decide_eq_true (by omega)).symm
        · rw [seedStep_aliveB_ne g level seed st hys]
      omega
  -- vLevel
  · intro x v hx htv
    by_cases hxs : x = seed
    · subst hxs
      rw [hTseed] at htv
      injection htv with h
      omega
    · rw [hT' x hxs] at htv
      exact invT.vLevel x v hx htv

theorem invT_advance {g : Graph} {E level : Nat} {st : PeelState}
    (invT : InvT g E level st) : InvT g E (level + 1) st :=
  { suppT := invT.suppT
    creditUnc := invT.creditUnc
    creditCom := invT.creditCom
    vLevel := fun x v hx htv => Nat.le_trans (invT.vLevel x v hx htv) (by omega) }

/-- Every edge of a triangle has a positive triangle count. -/
theorem co_triCount_pos {g : Graph} (hs : Simple g) {x n d1 d2 d : Nat}
    (hx : x < ecount g) (hdlt : d < ecount g)
    (hn : n ∈ commonNeighbors g (edgeEnds g x).1 (edgeEnds g x).2)
    (hd1 : get_eid g (edgeEnds g x).1 n = some d1)
    (hd2 : get_eid g (edgeEnds g x).2 n = some d2)
    (hd : d1 = d ∨ d2 = d) :
    1 ≤ triCount g (fun y => true) d := by
  obtain ⟨m, hm, c1, c2, hc1, hc2, hcx, hc1s, hc2s⟩ :=
    triangle_transfer (eid_ends hs hdlt) (eid_ends hs hx)
      (simple_ends_ne hs hx) (simple_ends_lt hs hx).1
      (simple_ends_lt hs hx).2 hn hd1 hd2 hd
  rw [triCount_eq]
  have hmem : m ∈ (commonNeighbors g (edgeEnds g d).1 (edgeEnds g d).2).filter
      (triPred g (fun y => true) d) := by
    apply List.mem_filter.mpr
    refine ⟨hm, ?_⟩
    rw [triPred_resolve _ hc1 hc2]
    rfl
  exact List.length_pos_of_mem hmem

theorem initTruss_invT (g : Graph) (hs : Simple g) {support : List Nat}
    {mx : Nat} (hmx : vectorMax support = some mx)
    (hE : ecount g = support.length)
    (hsup : ∀ x, x < support.length →
      support.getD x 0 = triCount g (fun y => true) x) :
    InvT g support.length 1 (initTruss support mx) := by
  have hmax := vectorMax_getD hmx
  have hC := initTruss_completed_getD support mx hmax
  have hT := initTruss_trussness_getD support mx hmax
  have hS := initTruss_support support mx
  refine { suppT := ?_, creditUnc := ?_, creditCom := ?_, vLevel := ?_ }
  · intro x hx hxc
    rw [hS, hsup x hx]
    exact triCount_mono _ _ (fun y _ _ => rfl) x
  · intro x hx hxc
    have hxg : x < ecount g := by rw [hE]; exact hx
    have hxpos : 1 ≤ support.getD x 0 := by
      rw [hC x] at hxc
      by_cases h : (x < support.length ∧ support.getD x 0 = 0)
      · rw [if_pos h] at hxc
        exact Bool.noConfusion hxc
      · have hne : ¬ support.getD x 0 = 0 := fun hz => h ⟨hx, hz⟩
        omega
    rw [hS]
    have hgoal : ∀ l, 1 ≤ l →
        support.getD x 0 ≤ triCount g (aliveB (initTruss support mx) l) x := by
      intro l hl
      rw [hsup x hx]
      rw [triCount_eq, triCount_eq]
      apply length_filter_mono
      intro n hn hq2
      obtain ⟨d1, d2, hd1, hd2⟩ := cn_eids_exist hn
      rw [triPred_resolve _ hd1 hd2]
      rw [Bool.and_eq_true]
      have hd1lt := get_eid_lt hd1
      have hd2lt := get_eid_lt hd2
      have hp1 := co_triCount_pos hs hxg hd1lt hn hd1 hd2 (Or.inl rfl)
      have hp2 := co_triCount_pos hs hxg hd2lt hn hd1 hd2 (Or.inr rfl)
      have hs1 : ¬ support.getD d1 0 = 0 := by
        rw [hsup d1 (by rw [← hE]; exact hd1lt)]
        omega
      have hs2 : ¬ support.getD d2 0 = 0 := by
        rw [hsup d2 (by rw [← hE]; exact hd2lt)]
        omega
      constructor
      · apply aliveB_of_unc
        rw [hC d1, if_neg (fun hcontra => hs1 hcontra.2)]
      · apply aliveB_of_unc
        rw [hC d2, if_neg (fun hcontra => hs2 hcontra.2)]
    exact hgoal _ hxpos
  · intro x v hx htv
    rw [hT x] at htv
    by_cases h : (x < support.length ∧ support.getD x 0 = 0)
    · rw [if_pos h] at htv
      have hv2 : v = 2 := by
        injection htv with hh
        omega
      subst hv2
      have h0 : (2 : Nat) - 2 = 0 := rfl
      rw [h0]
      exact Nat.zero_le _
    · rw [if_neg h] at htv
      exact absurd htv (by simp)
  · intro x v hx htv
    rw [hT x] at htv
    by_cases h : (x < support.length ∧ support.getD x 0 = 0)
    · rw [if_pos h] at htv
      injection htv with hh
      omega
    · rw [if_neg h] at htv
      exact absurd htv (by simp)

theorem whileP_invT (g : Graph) (hs : Simple g) {pick : List Nat → Nat}
    (hv : ValidPick pick) {E mx level : Nat} (hE : ecount g = E)
    (hlev : 1 ≤ level) (hle : level ≤ mx) :
    ∀ (fuel : Nat) (st : PeelState), Inv E mx level st → InvT g E level st →
      uncompleted st ≤ fuel →
      InvT g E level (whileP g pick level fuel st) := by
  intro fuel
  induction fuel with
  | zero =>
    intro st inv invT hf
    rw [whileP_zero]
    exact invT
  | succ fuel ih =>
    intro st inv invT hf
    cases hb : bucketGet st.buckets level with
    | nil =>
      rw [whileP_succ_nil g pick level fuel st hb]
      exact invT
    | cons seed rest =>
      rw [whileP_succ_cons g pick level fuel st hb]
      have hmem : pick (seed :: rest) ∈ bucketGet st.buckets level := by
        rw [hb]
        exact hv _ (by simp)
      have hstep := seedStep_inv g hlev hle inv hmem
      have hstepT := seedStep_invT g hs hE hlev inv hmem invT
      have hcnt := seedStep_uncompleted g hlev inv hmem
      exact ih _ hstep hstepT (by omega)

theorem peelP_invT (g : Graph) (hs : Simple g) {pick : List Nat → Nat}
    (hv : ValidPick pick) {E mx : Nat} (hE : ecount g = E) :
    ∀ (k level : Nat) (st : PeelState), 1 ≤ level → level + k ≤ mx + 1 →
      Inv E mx level st → InvT g E level st →
      InvT g E (level + k) (peelP g pick E k level st) := by
  intro k
  induction k with
  | zero =>
    intro level st _ _ _ invT
    exact invT
  | succ k ih =>
    intro level st h1 h2 inv invT
    rw [peelP_succ]
    have hw := whileP_inv g hv h1 (by omega) E st inv
      (uncompleted_le st inv.comLen)
    have hwT := whileP_invT g hs hv hE h1 (by omega) E st inv invT
      (uncompleted_le st inv.comLen)
    have hadv := inv_advance hw.1 hw.2
    have hadvT := invT_advance hwT
    have hres := ih (level + 1) _ (by omega) (by omega) hadv hadvT
    have harith : level + 1 + k = level + (k + 1) := by omega
    rw [harith] at hres
    exact hres

theorem runP_invT (g : Graph) (hs : Simple g) {pick : List Nat → Nat}
    (hv : ValidPick pick) {support : List Nat} {mx : Nat}
    (hmx : vectorMax support = some mx) (hE : ecount g = support.length)
    (hsup : ∀ x, x < support.length →
      support.getD x 0 = triCount g (fun y => true) x) :
    InvT g support.length (mx + 1) (runP g pick support mx) := by
  have h := peelP_invT g hs hv hE mx 1 (initTruss support mx) (Nat.le_refl 1)
    (by omega) (initTruss_inv hmx) (initTruss_invT g hs hmx hE hsup)
  rw [show 1 + mx = mx + 1 by omega] at h
  exact h

theorem aliveB_of_val {st : PeelState} {l y w : Nat}
    (ht : st.trussness.getD y none = some w) (hw : l + 2 ≤ w) :
    aliveB st l y = true := by
  unfold aliveB
  rw [ht, Bool.or_eq_true]
  right
  exact decide_eq_true hw

/-- An edge set is k-dense when each of its edges lies in at least k
triangles whose other two edges are also in the set. -/
def Dense (g : Graph) (k : Nat) (P : Nat → Bool) : Prop :=
  ∀ x, x < ecount g → P x = true → k ≤ triCount g P x

/-- In a finished state the edges alive at threshold L form an L-dense
set: the final trussness values are supported by actual triangles. -/
theorem final_alive_dense {g : Graph} {E level : Nat} {st : PeelState}
    (invT : InvT g E level st) (hE : ecount g = E)
    (hcomp : ∀ e, e < E → st.completed.getD e false = true) (L : Nat) :
    Dense g L (aliveB st L) := by
  intro x hx hax
  have hxE : x < E := by rw [← hE]; exact hx
  rcases aliveB_true_cases hax with hunc | ⟨w, hw, hwge⟩
  · rw [hcomp x hxE] at hunc
    exact Bool.noConfusion hunc
  · have hcred := invT.creditCom x w hxE hw
    have hmono : triCount g (aliveB st (w - 2)) x ≤ triCount g (aliveB st L) x :=
      triCount_mono _ _ (fun y _ h => aliveB_mono_level (by omega) h) x
    omega

/-- Edges of a k-dense set that are already finalized carry a
trussness value of at least k + 2. -/
def Protected (g : Graph) (E k : Nat) (P : Nat → Bool) (st : PeelState) : Prop :=
  ∀ x, x < E → P x = true → st.completed.getD x false = true →
    ∃ v, st.trussness.getD x none = some v ∧ k + 2 ≤ v

theorem seedStep_protected (g : Graph) {E mx level k : Nat}
    (hE : ecount g = E) {st : PeelState} (hlev : 1 ≤ level)
    (inv : Inv E mx level st) (invT : InvT g E level st)
    {seed : Nat} (hmem : seed ∈ bucketGet st.buckets level)
    {P : Nat → Bool} (hdense : Dense g k P)
    (hD : Protected g E k P st) :
    Protected g E k P (seedStep g level seed st) := by
  intro x hx hPx hxc
  have hseedE := inv.mem_lt level seed hmem
  have hsunc := bucket_unc hlev inv hlev hmem
  have hssup := inv.mem_sup level seed hmem
  have hcl : seed < st.completed.length := by rw [inv.comLen]; exact hseedE
  have htl : seed < st.trussness.length := by rw [inv.truLen]; exact hseedE
  by_cases hxs : x = seed
  · subst hxs
    refine ⟨level + 2, ?_, ?_⟩
    · rw [seedStep_trussness]
      exact getD_set_self _ _ _ _ htl
    · have hk : k ≤ level := by
        by_contra hkgt
        have hsupp := invT.suppT x hseedE hsunc
        have hPunc : ∀ y, y < ecount g → P y = true → uncB st y = true := by
          intro y hy hPy
          cases hc : st.completed.getD y false
          · exact uncB_of_unc hc
          · obtain ⟨v, hv, hvk⟩ := hD y (by rw [← hE]; exact hy) hPy hc
            have := invT.vLevel y v (by rw [← hE]; exact hy) hv
            omega
        have hcnt : triCount g P x ≤ triCount g (uncB st) x :=
          triCount_mono _ _ hPunc x
        have hdk := hdense x (by rw [hE]; exact hseedE) hPx
        rw [hssup] at hsupp
        omega
      omega
  · rw [seedStep_completed, getD_set_ne _ _ _ (Ne.symm hxs)] at hxc
    obtain ⟨v, hv, hvk⟩ := hD x hx hPx hxc
    refine ⟨v, ?_, hvk⟩
    rw [seedStep_trussness, getD_set_ne _ _ _ (Ne.symm hxs)]
    exact hv

theorem initTruss_protected (g : Graph) {support : List Nat} {mx : Nat}
    (hmx : vectorMax support = some mx) (hE : ecount g = support.length)
    (hsup : ∀ x, x < support.length →
      support.getD x 0 = triCount g (fun y => true) x)
    {k : Nat} {P : Nat → Bool} (hdense : Dense g k P) :
    Protected g support.length k P (initTruss support mx) := by
  have hmax := vectorMax_getD hmx
  intro x hx hPx hxc
  rw [initTruss_completed_getD support mx hmax x] at hxc
  by_cases h : (x < support.length ∧ support.getD x 0 = 0)
  · refine ⟨2, ?_, ?_⟩
    · rw [initTruss_trussness_getD support mx hmax x, if_pos h]
    · have hd := hdense x (by rw [hE]; exact hx) hPx
      have hmono : triCount g P x ≤ triCount g (fun y => true) x :=
        triCount_mono _ _ (fun y _ _ => rfl) x
      have hsx := hsup x hx
      omega
  · rw [if_neg h] at hxc
    exact Bool.noConfusion hxc

theorem whileP_protected (g : Graph) (hs : Simple g) {pick : List Nat → Nat}
    (hv : ValidPick pick) {E mx level k : Nat} (hE : ecount g = E)
    (hlev : 1 ≤ level) (hle : level ≤ mx) {P : Nat → Bool}
    (hdense : Dense g k P) :
    ∀ (fuel : Nat) (st : PeelState), Inv E mx level st → InvT g E level st →
      Protected g E k P st → uncompleted st ≤ fuel →
      Protected g E k P (whileP g pick level fuel st) := by
  intro fuel
  induction fuel with
  | zero =>
    intro st inv invT hD hf
    rw [whileP_zero]
    exact hD
  | succ fuel ih =>
    intro st inv invT hD hf
    cases hb : bucketGet st.buckets level with
    | nil =>
      rw [whileP_succ_nil g pick level fuel st hb]
      exact hD
    | cons seed rest =>
      rw [whileP_succ_cons g pick level fuel st hb]
      have hmem : pick (seed :: rest) ∈ bucketGet st.buckets level := by
        rw [hb]
        exact hv _ (by simp)
      have hstep := seedStep_inv g hlev hle inv hmem
      have hstepT := seedStep_invT g hs hE hlev inv hmem invT
      have hstepD := seedStep_protected g hE hlev inv invT hmem hdense hD
      have hcnt := seedStep_uncompleted g hlev inv hmem
      exact ih _ hstep hstepT hstepD (by omega)

theorem peelP_protected (g : Graph) (hs : Simple g) {pick : List Nat → Nat}
    (hv : ValidPick pick) {E mx k : Nat} (hE : ecount g = E) {P : Nat → Bool}
    (hdense : Dense g k P) :
    ∀ (j level : Nat) (st : PeelState), 1 ≤ level → level + j ≤ mx + 1 →
      Inv E mx level st → InvT g E level st → Protected g E k P st →
      Protected g E k P (peelP g pick E j level st) := by
  intro j
  induction j with
  | zero =>
    intro level st _ _ _ _ hD
    exact hD
  | succ j ih =>
    intro level st h1 h2 inv invT hD
    rw [peelP_succ]
    have hw := whileP_inv g hv h1 (by omega) E st inv
      (uncompleted_le st inv.comLen)
    have hwT := whileP_invT g hs hv hE h1 (by omega) E st inv invT
      (uncompleted_le st inv.comLen)
    have hwD := whileP_protected g hs hv hE h1 (by omega) hdense E st inv invT
      hD (uncompleted_le st inv.comLen)
    exact ih (level + 1) _ (by omega) (by omega) (inv_advance hw.1 hw.2)
      (invT_advance hwT) hwD

theorem runP_protected (g : Graph) (hs : Simple g) {pick : List Nat → Nat}
    (hv : ValidPick pick) {support : List Nat} {mx : Nat}
    (hmx : vectorMax support = some mx) (hE : ecount g = support.length)
    (hsup : ∀ x, x < support.length →
      support.getD x 0 = triCount g (fun y => true) x)
    {k : Nat} {P : Nat → Bool} (hdense : Dense g k P) :
    Protected g support.length k P (runP g pick support mx) :=
  peelP_protected g hs hv hE hdense mx 1 (initTruss support mx)
    (Nat.le_refl 1) (by omega) (initTruss_inv hmx)
    (initTruss_invT g hs hmx hE hsup) (initTruss_protected g hmx hE hsup hdense)

theorem runP_value_le (g : Graph) (hs : Simple g) {support : List Nat}
    {mx : Nat} {pick1 pick2 : List Nat → Nat} (hv1 : ValidPick pick1)
    (hv2 : ValidPick pick2) (hmx : vectorMax support = some mx)
    (hE : ecount g = support.length)
    (hsup : ∀ x, x < support.length →
      support.getD x 0 = triCount g (fun y => true) x) :
    ∀ e v1 v2, e < support.length →
      (runP g pick1 support mx).trussness.getD e none = some v1 →
      (runP g pick2 support mx).trussness.getD e none = some v2 →
      v1 ≤ v2 := by
  intro e v1 v2 he h1 h2
  have inv1 := runP_inv g hv1 hmx
  have invT1 := runP_invT g hs hv1 hmx hE hsup
  have hv1ge2 := (inv1.trussVal e v1 he h1).1
  have hdense : Dense g (v1 - 2) (aliveB (runP g pick1 support mx) (v1 - 2)) :=
    final_alive_dense invT1 hE (runP_completed g hv1 hmx) (v1 - 2)
  have heP : aliveB (runP g pick1 support mx) (v1 - 2) e = true :=
    aliveB_of_val h1 (by omega)
  have hprot := runP_protected g hs hv2 hmx hE hsup hdense
  obtain ⟨w, hw, hwk⟩ := hprot e he heP (runP_completed g hv2 hmx e he)
  rw [h2] at hw
  have hwv : v2 = w := Option.some.inj hw
  omega

/-- The final trussness vector is the same for every valid tie-break. -/
theorem runP_trussness_pick_eq (g : Graph) (hs : Simple g)
    {support : List Nat} {mx : Nat} {pick1 pick2 : List Nat → Nat}
    (hv1 : ValidPick pick1) (hv2 : ValidPick pick2)
    (hmx : vectorMax support = some mx) (hE : ecount g = support.length)
    (hsup : ∀ x, x < support.length →
      support.getD x 0 = triCount g (fun y => true) x) :
    (runP g pick1 support mx).trussness = (runP g pick2 support mx).trussness := by
  have inv1 := runP_inv g hv1 hmx
  have inv2 := runP_inv g hv2 hmx
  apply List.ext_getElem
  · rw [inv1.truLen, inv2.truLen]
  · intro i h1 h2
    have hiE : i < support.length := by rw [← inv1.truLen]; exact h1
    have hsome1 : ((runP g pick1 support mx).trussness.getD i none).isSome =
        true := (inv1.trussSome i hiE).mp (runP_completed g hv1 hmx i hiE)
    have hsome2 : ((runP g pick2 support mx).trussness.getD i none).isSome =
        true := (inv2.trussSome i hiE).mp (runP_completed g hv2 hmx i hiE)
    obtain ⟨v1, hval1⟩ := Option.isSome_iff_exists.mp hsome1
    obtain ⟨v2, hval2⟩ := Option.isSome_iff_exists.mp hsome2
    have hle12 := runP_value_le g hs hv1 hv2 hmx hE hsup i v1 v2 hiE hval1 hval2
    have hle21 := runP_value_le g hs hv2 hv1 hmx hE hsup i v2 v1 hiE hval2 hval1
    have hveq : v1 = v2 := Nat.le_antisymm hle12 hle21
    have c1 : (runP g pick1 support mx).trussness.getD i none =
        (runP g pick1 support mx).trussness[i] := by
      rw [List.getD_eq_getElem?_getD, List.getElem?_eq_getElem h1]
      rfl
    have c2 : (runP g pick2 support mx).trussness.getD i none =
        (runP g pick2 support mx).trussness[i] := by
      rw [List.getD_eq_getElem?_getD, List.getElem?_eq_getElem h2]
      rfl
    rw [← c1, ← c2, hval1, hval2, hveq]

theorem headD_valid : ValidPick (fun l => l.headD 0) := headD_mem

theorem revHeadD_valid : ValidPick (fun l => l.reverse.headD 0) := by
  intro l hl
  have hrne : l.reverse ≠ [] := by
    rw [Ne, List.reverse_eq_nil_iff]
    exact hl
  exact List.mem_reverse.mp (headD_mem l.reverse hrne)

theorem edgeMatches_swap {p q : Nat × Nat} (h : edgeMatches p q.1 q.2 = true) :
    edgeMatches q p.1 p.2 = true := by
  rcases edgeMatches_iff.mp h with ⟨a, b⟩ | ⟨a, b⟩
  · exact edgeMatches_iff.mpr (Or.inl ⟨a.symm, b.symm⟩)
  · exact edgeMatches_iff.mpr (Or.inr ⟨b.symm, a.symm⟩)

/-- A decidable sufficient condition for simplicity of the stored
edge list. -/
theorem simple_of_pairwise (g : Graph)
    (h1 : ∀ p ∈ g.edges, p.1 < g.V ∧ p.2 < g.V ∧ p.1 ≠ p.2)
    (h2 : g.edges.Pairwise (fun p q => edgeMatches p q.1 q.2 = false)) :
    Simple g := by
  refine ⟨h1, ?_⟩
  intro i j p q hpi hqj hmat
  obtain ⟨hilen, hig⟩ := List.get?_eq_some.mp hpi
  obtain ⟨hjlen, hjg⟩ := List.get?_eq_some.mp hqj
  by_contra hij
  rw [List.pairwise_iff_get] at h2
  rcases Nat.lt_or_ge i j with hlt | hge
  · have hr := h2 ⟨i, hilen⟩ ⟨j, hjlen⟩ (Fin.mk_lt_mk.mpr hlt)
    rw [hig, hjg, hmat] at hr
    exact Bool.noConfusion hr
  · have hlt2 : j < i := by omega
    have hr := h2 ⟨j, hjlen⟩ ⟨i, hilen⟩ (Fin.mk_lt_mk.mpr hlt2)
    rw [hjg, hig, edgeMatches_swap hmat] at hr
    exact Bool.noConfusion hr

/-- C8: the trussness array is invariant to the tie-break among
same-level edges and the computation is deterministic: on a simple
graph whose support vector counts each edge's triangles, any two valid
pick policies produce identical trussness arrays, and the array
returned by igraph_i_trussness (a pure function, hence returning the
same array on a second call) equals the array of every valid run. -/
theorem truss_tiebreak_invariance (g : Graph) (hs : Simple g)
    {support : List Nat} {mx : Nat} {pick1 pick2 : List Nat → Nat}
    (hv1 : ValidPick pick1) (hv2 : ValidPick pick2)
    (hmx : vectorMax support = some mx) (hE : ecount g = support.length)
    (hsup : ∀ x, x < support.length →
      support.getD x 0 = triCount g (fun y => true) x) :
    (runP g pick1 support mx).trussness = (runP g pick2 support mx).trussness ∧
    igraph_i_trussness g support =
      some ((runP g pick1 support mx).trussness) := by
  constructor
  · exact runP_trussness_pick_eq g hs hv1 hv2 hmx hE hsup
  · have hne : ¬ support.length = 0 := by
      intro h0
      rw [List.length_eq_zero] at h0
      rw [h0] at hmx
      exact Option.noConfusion hmx
    unfold igraph_i_trussness
    rw [if_neg hne, hmx]
    show some ((trussPeelRun g support mx).trussness) = _
    rw [trussPeelRun_eq_runP]
    exact congrArg some (runP_trussness_pick_eq g hs headD_valid hv1 hmx hE hsup)

/-- Witness for C8: the triangle graph, with the head pick (the code)
and the reversed-head pick. -/
theorem truss_tiebreak_invariance_witness :
    (runP ⟨3, [(0, 1), (0, 2), (1, 2)]⟩ (fun l => l.headD 0)
        [1, 1, 1] 1).trussness =
      (runP ⟨3, [(0, 1), (0, 2), (1, 2)]⟩ (fun l => l.reverse.headD 0)
        [1, 1, 1] 1).trussness ∧
    igraph_i_trussness ⟨3, [(0, 1), (0, 2), (1, 2)]⟩ [1, 1, 1] =
      some ((runP ⟨3, [(0, 1), (0, 2), (1, 2)]⟩ (fun l => l.headD 0)
        [1, 1, 1] 1).trussness) :=
  truss_tiebreak_invariance ⟨3, [(0, 1), (0, 2), (1, 2)]⟩
    (simple_of_pairwise _ (by decide) (by decide))
    headD_valid revHeadD_valid (by decide) (by decide) (by decide)

end Truss
